import Mathlib

/-!
Verification of the gorilla/websocket handshake, masking, compression and
proxy components against their natural-language specification.

Go values are embedded as follows: machine bytes are `Nat` (values < 256,
with explicit `% 2 ^ w` where word arithmetic overflows), Go strings are
either byte lists (`List Nat`) or code-point lists (`List Char`) depending
on the granularity the source works at, `[]string` is `List (List Char)`,
`http.Header` is an association list from canonical header names to value
lists, and fallible code returns `Option` or `Except`.
-/

namespace WS

/-- Go strings at code-point granularity. -/
abbrev GoStr := List Char

/-- The bytes of an ASCII Go string literal. -/
def goBytes (s : String) : List Nat := s.data.map Char.toNat

/-- Code points of a Go string literal. -/
def goStr (s : String) : GoStr := s.data

/-! ## util.go: computeAcceptKey (SHA-1 and Base64, from crypto/sha1 and
encoding/base64, which the source calls) -/

/-- 32-bit truncation used throughout SHA-1. -/
def u32 (x : Nat) : Nat := x % 4294967296

/-- Rotate a 32-bit word left by `n` bits (0 ≤ n < 32). -/
def rotl32 (x n : Nat) : Nat := u32 (x <<< n) ||| (x >>> (32 - n))

/-- Big-endian 32-bit word from four bytes. -/
def beWord (a b c d : Nat) : Nat := (a <<< 24) ||| (b <<< 16) ||| (c <<< 8) ||| d

/-- Big-endian bytes of a 32-bit word. -/
def beWordBytes (v : Nat) : List Nat :=
  [(v >>> 24) % 256, (v >>> 16) % 256, (v >>> 8) % 256, v % 256]

/-- The 16 initial 32-bit message-schedule words of one 64-byte block. -/
def sha1InitWords : List Nat → List Nat
  | a :: b :: c :: d :: rest => beWord a b c d :: sha1InitWords rest
  | _ => []

/-- Extend the message schedule by `n` further words
(`w[i] = rotl1 (w[i-3] xor w[i-8] xor w[i-14] xor w[i-16])`). -/
def sha1Extend (ws : List Nat) : Nat → List Nat
  | 0 => ws
  | n + 1 =>
    let L := ws.length
    sha1Extend
      (ws ++ [rotl32 (ws.getD (L - 3) 0 ^^^ ws.getD (L - 8) 0 ^^^
        ws.getD (L - 14) 0 ^^^ ws.getD (L - 16) 0) 1]) n

/-- SHA-1 working state. -/
structure Sha1St where
  a : Nat
  b : Nat
  c : Nat
  d : Nat
  e : Nat

/-- One of the 80 SHA-1 rounds. -/
def sha1Round (st : Sha1St) (i w : Nat) : Sha1St :=
  let f :=
    if i < 20 then (st.b &&& st.c) ||| ((st.b ^^^ 4294967295) &&& st.d)
    else if i < 40 then st.b ^^^ st.c ^^^ st.d
    else if i < 60 then (st.b &&& st.c) ||| (st.b &&& st.d) ||| (st.c &&& st.d)
    else st.b ^^^ st.c ^^^ st.d
  let k :=
    if i < 20 then 1518500249
    else if i < 40 then 1859775393
    else if i < 60 then 2400959708
    else 3395469782
  let temp := u32 (rotl32 st.a 5 + f + st.e + k + w)
  ⟨temp, st.a, rotl32 st.b 30, st.c, st.d⟩

/-- Process one 64-byte block. -/
def sha1Block (h : Sha1St) (block : List Nat) : Sha1St :=
  let ws := sha1Extend (sha1InitWords block) 64
  let st := (List.range 80).foldl (fun st i => sha1Round st i (ws.getD i 0)) h
  ⟨u32 (h.a + st.a), u32 (h.b + st.b), u32 (h.c + st.c), u32 (h.d + st.d), u32 (h.e + st.e)⟩

/-- Process 64-byte blocks of a padded message; the fuel argument (any bound
on the number of blocks) makes the recursion structural so that the kernel
can evaluate it. -/
def sha1BlocksF : Nat → Sha1St → List Nat → Sha1St
  | 0, h, _ => h
  | fuel + 1, h, msg =>
    if msg = [] then h
    else sha1BlocksF fuel (sha1Block h (msg.take 64)) (msg.drop 64)

/-- Process all 64-byte blocks of a padded message. -/
def sha1Blocks (h : Sha1St) (msg : List Nat) : Sha1St :=
  sha1BlocksF msg.length h msg

/-- SHA-1 padding: a 0x80 byte, zeros to 56 mod 64, then the bit length
as a big-endian 64-bit integer. -/
def sha1Pad (msg : List Nat) : List Nat :=
  let len := msg.length
  let zeros := (64 + 56 - ((len + 1) % 64)) % 64
  let bitLen := 8 * len
  msg ++ [128] ++ List.replicate zeros 0 ++
    [(bitLen >>> 56) % 256, (bitLen >>> 48) % 256, (bitLen >>> 40) % 256,
     (bitLen >>> 32) % 256] ++ beWordBytes bitLen

/-- SHA-1 digest (20 bytes) of a byte sequence. -/
def sha1 (msg : List Nat) : List Nat :=
  let h := sha1Blocks ⟨1732584193, 4023233417, 2562383102, 271733878, 3285377520⟩ (sha1Pad msg)
  beWordBytes h.a ++ beWordBytes h.b ++ beWordBytes h.c ++ beWordBytes h.d ++ beWordBytes h.e

/-- The standard Base64 alphabet. -/
def b64Alphabet : List Char := goStr ("ABCDEFGHIJKLMNOPQRSTUVWXYZabcdefghijklmnopqrstuvwxyz0123456789+/")

/-- Alphabet lookup. -/
def b64Char (i : Nat) : Char := b64Alphabet.getD i '?'

/-- Standard Base64 encoding (with `=` padding), as in
encoding/base64 StdEncoding.EncodeToString. -/
def base64Encode : List Nat → List Char
  | [] => []
  | [a] => [b64Char (a >>> 2), b64Char ((a &&& 3) <<< 4), '=', '=']
  | [a, b] => [b64Char (a >>> 2), b64Char (((a &&& 3) <<< 4) ||| (b >>> 4)),
      b64Char ((b &&& 15) <<< 2), '=']
  | a :: b :: c :: rest =>
      b64Char (a >>> 2) :: b64Char (((a &&& 3) <<< 4) ||| (b >>> 4)) ::
        b64Char (((b &&& 15) <<< 2) ||| (c >>> 6)) :: b64Char (c &&& 63) ::
          base64Encode rest

/-- From util.go: the magic GUID appended to the challenge key. -/
def keyGUID : List Nat := goBytes ("258EAFA5-E914-47DA-95CA-C5AB0DC85B11")

/-- From util.go: computeAcceptKey hashes the challenge key followed by
`keyGUID` with SHA-1 and Base64-encodes the digest. -/
def computeAcceptKey (challengeKey : List Nat) : List Char :=
  base64Encode (sha1 (challengeKey ++ keyGUID))

/-! ## mask.go: maskBytes -/

/-- encoding/binary LittleEndian.Uint32 of the four key bytes. -/
def leUint32 (b0 b1 b2 b3 : Nat) : Nat :=
  b0 ||| (b1 <<< 8) ||| (b2 <<< 16) ||| (b3 <<< 24)

/-- encoding/binary LittleEndian.Uint64 read of the first 8 bytes. -/
def leUint64 : List Nat → Nat
  | b0 :: b1 :: b2 :: b3 :: b4 :: b5 :: b6 :: b7 :: _ =>
    b0 ||| (b1 <<< 8) ||| (b2 <<< 16) ||| (b3 <<< 24) ||| (b4 <<< 32) |||
      (b5 <<< 40) ||| (b6 <<< 48) ||| (b7 <<< 56)
  | _ => 0

/-- encoding/binary LittleEndian.PutUint64: the 8 little-endian bytes of a
64-bit word. -/
def lePutUint64 (v : Nat) : List Nat :=
  [v % 256, (v >>> 8) % 256, (v >>> 16) % 256, (v >>> 24) % 256,
   (v >>> 32) % 256, (v >>> 40) % 256, (v >>> 48) % 256, (v >>> 56) % 256]

/-- math/bits RotateLeft64. A negative `k` rotates right; Go computes the
shift amount as `uint(k) & 63`, which is `k mod 64` as an unsigned value,
and shifts of a uint64 by 64 or more produce 0. -/
def rotateLeft64 (x : Nat) (k : Int) : Nat :=
  let s := (k % 64).toNat
  ((x <<< s) % 2 ^ 64) ||| (x >>> (64 - s))

/-- The byte-at-a-time loop of maskBytes
(`bytes[i] ^= key[pos&3]; pos++`). -/
def maskByteLoop (key : List Nat) : Nat → List Nat → List Nat
  | _, [] => []
  | pos, b :: bs => (b ^^^ key.getD (pos &&& 3) 0) :: maskByteLoop key (pos + 1) bs

/-- The word-at-a-time loop of maskBytes: XOR 8 bytes at a time with the
rotated 64-bit key while more than 7 bytes remain, then finish the tail
byte-at-a-time (the multiple of 8 did not change pos). The fuel argument
(any bound on the number of words) makes the recursion structural. -/
def maskWordLoop (key : List Nat) (key64 : Nat) (pos : Nat) : Nat → List Nat → List Nat × Nat
  | 0, bs => (maskByteLoop key pos bs, (pos + bs.length) &&& 3)
  | fuel + 1, bs =>
    if bs.length > 7 then
      let r := maskWordLoop key key64 pos fuel (bs.drop 8)
      (lePutUint64 (leUint64 bs ^^^ key64) ++ r.1, r.2)
    else (maskByteLoop key pos bs, (pos + bs.length) &&& 3)

/-- From mask.go: maskBytes uses the bytes from key, starting at pos, to XOR
bytes; the return is the final (key) pos. Payloads shorter than 8 bytes are
masked byte-at-a-time; longer payloads word-at-a-time with the rotated
little-endian 64-bit key, then a byte tail. -/
def maskBytes (key : List Nat) (pos : Nat) (bs : List Nat) : List Nat × Nat :=
  if bs.length < 8 then
    (maskByteLoop key pos bs, (pos + bs.length) &&& 3)
  else
    let k32 := leUint32 (key.getD 0 0) (key.getD 1 0) (key.getD 2 0) (key.getD 3 0)
    let key64 := k32 ||| (k32 <<< 32)
    maskWordLoop key (rotateLeft64 key64 (-(pos : Int) * 8)) pos bs.length bs

/-- The byte-at-a-time reference from the claim: byte `i` becomes
`b[i] XOR key[(pos+i) mod 4]`. -/
def maskRef (key : List Nat) : Nat → List Nat → List Nat
  | _, [] => []
  | pos, b :: bs => (b ^^^ key.getD (pos % 4) 0) :: maskRef key (pos + 1) bs

/-- Little-endian base-256 value of a byte list. -/
def bytesToNatLE : List Nat → Nat
  | [] => 0
  | b :: bs => b + 256 * bytesToNatLE bs

/-! ## compress.go: truncWriter, flateWriteWrapper and the flate model;
compression.go: FlateAdaptor -/

/-- State of truncWriter: `p` is the 4-byte buffer (always length 4,
zero-initialised), `n` counts its valid bytes, and `out` records the bytes
forwarded to the underlying writer so far. -/
structure TruncW where
  n : Nat
  p : List Nat
  out : List Nat
deriving DecidableEq

/-- A fresh truncWriter. -/
def truncInit : TruncW := ⟨0, [0, 0, 0, 0], []⟩

/-- From compress.go truncWriter.Write: fill the 4-byte buffer first; once
full, forward `m = min(len(p), 4)` bytes from the front of the buffer,
shift the buffer left by `m`, refill its tail with the last `m` incoming
bytes, and forward all but the last `m` incoming bytes. -/
def truncWrite (w : TruncW) (q : List Nat) : TruncW :=
  let k := if w.n < 4 then min (4 - w.n) q.length else 0
  let p1 := w.p.take w.n ++ q.take k ++ w.p.drop (w.n + k)
  let n1 := w.n + k
  let q1 := q.drop k
  if q1.length = 0 then ⟨n1, p1, w.out⟩
  else
    let m := min q1.length 4
    ⟨n1, p1.drop m ++ q1.drop (q1.length - m),
      w.out ++ p1.take m ++ q1.take (q1.length - m)⟩

/-- Closed form of the truncWriter state after the concatenated input
`ins`: the underlying writer has received all but the last four input
bytes, the buffer holds the most recent `min (ins.length) 4` bytes (zero
padded), and `n = min (ins.length) 4`. -/
def truncOf (ins : List Nat) : TruncW :=
  ⟨min ins.length 4,
   (ins.drop (ins.length - 4)).take 4 ++ List.replicate (4 - ins.length) 0,
   ins.take (ins.length - 4)⟩

/-- The error returned by flateWriteWrapper.Close when the retained bytes
are wrong. -/
def flateTailErr : String := "websocket: internal error, unexpected bytes at end of flate stream"

/-- From compress.go flateWriteWrapper.Close, after the flate Flush: verify
that the four retained bytes are 0x00 0x00 0xff 0xff and close the
underlying writer, forwarding nothing further. -/
def flateWrapperClose (tw : TruncW) : Except String TruncW :=
  if tw.p ≠ [0, 0, 0xff, 0xff] then Except.error flateTailErr else Except.ok tw

/-- State of compression.go's FlateAdaptor: the retained tail bytes and
the bytes forwarded to the message writer. -/
structure FlateAdaptor where
  last5bytes : List Nat
  out : List Nat
deriving DecidableEq

/-- From compression.go FlateAdaptor.Write: append the incoming bytes to
the retained ones; if more than 4 bytes are held, keep the last five and
forward the rest. -/
def flateAdaptorWrite (aw : FlateAdaptor) (p : List Nat) : FlateAdaptor :=
  let t := aw.last5bytes ++ p
  if t.length > 4 then
    ⟨t.drop (t.length - 5), aw.out ++ t.take (t.length - 5)⟩
  else
    ⟨t, aw.out⟩

/-- The tail appended by decompressNoContextTakeover before handing the
stream to the flate reader: the four RFC bytes 0x00 0x00 0xff 0xff plus the
final-block marker 0x01 0x00 0x00 0xff 0xff. -/
def flateReadTail : List Nat := [0x00, 0x00, 0xff, 0xff] ++ [0x01, 0x00, 0x00, 0xff, 0xff]

/-- Modelled from the spec: the compress/flate encoder is not part of this
repository. Its output up to a Flush is modelled as a sequence of
self-delimiting stored blocks `0x02, len, data` (len ≤ 255); the
compression level does not affect the modelled byte stream. The fuel
argument (any bound on the number of blocks) makes the recursion
structural. -/
def flateCompressF : Nat → List Nat → List Nat
  | 0, _ => []
  | fuel + 1, m =>
    if m.isEmpty then []
    else 2 :: min m.length 255 :: (m.take 255 ++ flateCompressF fuel (m.drop 255))

/-- Modelled from the spec: the byte stream a flate encoder at any level
has produced for message `m` right before a Flush appends the sync
marker. -/
def flateCompress (level : Int) (m : List Nat) : List Nat :=
  flateCompressF m.length m

/-- Modelled from the spec: the compress/flate decoder consumes stored
blocks, skips the empty sync marker 0x00 0x00 0xff 0xff, and stops cleanly
at the final-block marker 0x01 0x00 0x00 0xff 0xff; anything else is a
corrupt-stream error (`none`). -/
def inflateF : Nat → List Nat → Option (List Nat)
  | 0, _ => none
  | fuel + 1, s =>
    match s with
    | 1 :: 0 :: 0 :: 255 :: 255 :: _ => some []
    | 0 :: 0 :: 255 :: 255 :: rest => inflateF fuel rest
    | 2 :: len :: rest =>
      if rest.length < len then none
      else
        match inflateF fuel (rest.drop len) with
        | none => none
        | some d => some (rest.take len ++ d)
    | _ => none

/-- Read a modelled flate stream to end-of-stream. -/
def inflate (s : List Nat) : Option (List Nat) :=
  inflateF (s.length + 1) s

/-- One-shot run of the write pipeline built by compressNoContextTakeover
(flate writer over truncWriter over the frame writer): Write the whole
message, then Close as flateWriteWrapper.Close does — flate Flush (whose
modelled output ends in the sync marker 0x00 0x00 0xff 0xff), verify the
four bytes retained by the truncWriter, and return the frame bytes.
Indexing the per-level encoder pool panics for levels outside [-2, 9]. -/
def compressMessage (level : Int) (m : List Nat) : Except String (List Nat) :=
  if level < -2 ∨ 9 < level then Except.error ("panic: pool index out of range")
  else
    let tw := truncWrite truncInit (flateCompress level m ++ [0x00, 0x00, 0xff, 0xff])
    match flateWrapperClose tw with
    | Except.error e => Except.error e
    | Except.ok w => Except.ok w.out

/-- One-shot run of the read pipeline built by decompressNoContextTakeover:
the flate reader consumes the frame bytes followed by `flateReadTail`. -/
def decompressMessage (frame : List Nat) : Option (List Nat) :=
  inflate (frame ++ flateReadTail)

/-! ## util.go: HTTP token utilities (skipSpace, nextToken,
nextTokenOrQuoted, equalASCIIFold, tokenListContainsValue,
parseExtensions) -/

/-- The whitespace octets skipped by skipSpace. -/
def isSpaceChar (c : Char) : Bool := c = ' ' ∨ c = '\t' ∨ c = '\r' ∨ c = '\n'

/-- From util.go: skipSpace returns the suffix of s starting at the first
non-whitespace octet. -/
def skipSpace : GoStr → GoStr
  | [] => []
  | c :: rest => if isSpaceChar c then skipSpace rest else c :: rest

/-- RFC 2616 token octets: CHARs that are neither CTLs nor separators. -/
def isTokenOctet (c : Char) : Bool :=
  if c.toNat ≤ 31 ∨ 127 ≤ c.toNat then false
  else ¬ ([' ', '\t', '\"', '(', ')', ',', '/', ':', ';', '<',
      '=', '>', '?', '@', '[', ']', '\\', '\x7b', '\x7d'].contains c)

/-- From util.go: nextToken splits s into its leading token and the rest. -/
def nextToken (s : GoStr) : GoStr × GoStr :=
  (s.takeWhile isTokenOctet, s.dropWhile isTokenOctet)

/-- Scan a quoted string body for the closing quote, keeping track of
escapes; returns the raw body and the remainder after the closing quote,
or none when the quoted token is unterminated. -/
def quoteScan : GoStr → Bool → Option (GoStr × GoStr)
  | [], _ => none
  | c :: rest, escaped =>
    if escaped then (quoteScan rest false).map (fun pr => (c :: pr.1, pr.2))
    else if c = '\"' then some ([], rest)
    else if c = '\\' then (quoteScan rest true).map (fun pr => (c :: pr.1, pr.2))
    else (quoteScan rest false).map (fun pr => (c :: pr.1, pr.2))

/-- Remove the escape backslashes of a quoted-token body. -/
def unescape : GoStr → Bool → GoStr
  | [], _ => []
  | c :: rest, escaped =>
    if c = '\\' ∧ ¬ escaped then unescape rest true
    else c :: unescape rest false

/-- From util.go: nextTokenOrQuoted gets the next token, unescaping and
unquoting quoted tokens; an unterminated quoted token yields two empty
strings. -/
def nextTokenOrQuoted (s : GoStr) : GoStr × GoStr :=
  if s.head? ≠ some '\"' then nextToken s
  else
    match quoteScan s.tail false with
    | none => ([], [])
    | some (value, rest) => (unescape value false, rest)

/-- From util.go: equalASCIIFold returns true if s equals t with ASCII
case folding; code points are compared one at a time and only A-Z fold. -/
def equalASCIIFold : GoStr → GoStr → Bool
  | sr :: s, tr :: t =>
    if sr = tr then equalASCIIFold s t
    else if 'A' ≤ sr ∧ sr ≤ 'Z' then
      if sr.toNat + 32 = tr.toNat then equalASCIIFold s t else false
    else if 'A' ≤ tr ∧ tr ≤ 'Z' then
      if tr.toNat + 32 = sr.toNat then equalASCIIFold s t else false
    else false
  | s, t => s == t

/-- Go http.Header: an association list from (canonical) header names to
value lists; Go map indexing is exact key lookup. -/
abbrev Header := List (GoStr × List GoStr)

/-- Raw map indexing `header[name]` together with the presence bit. -/
def headerLookup (h : Header) (name : GoStr) : Option (List GoStr) :=
  (h.find? (fun kv => kv.1 == name)).map (fun kv => kv.2)

/-- The value slice of `header[name]` (empty when absent). -/
def headerValues (h : Header) (name : GoStr) : List GoStr :=
  (headerLookup h name).getD []

/-- Header.Get: the first value of the (canonicalised) name, or "". -/
def headerGet (h : Header) (name : GoStr) : GoStr :=
  match headerValues h name with
  | [] => []
  | v :: _ => v

/-- The per-entry scanning loop of tokenListContainsValue: tokens are read
left to right; an empty token or a non-comma delimiter abandons the entry
(`continue headers`). The fuel argument (any bound on the number of
tokens) makes the recursion structural. -/
def tokenScanF (value : GoStr) : Nat → GoStr → Bool
  | 0, _ => false
  | fuel + 1, s =>
    let t := (nextToken (skipSpace s)).1
    let s1 := (nextToken (skipSpace s)).2
    if t.isEmpty then false
    else
      let s2 := skipSpace s1
      if s2 ≠ [] ∧ s2.head? ≠ some ',' then false
      else if equalASCIIFold t value then true
      else if s2.isEmpty then false
      else tokenScanF value fuel s2.tail

/-- From util.go: tokenListContainsValue returns true if the 1#token
header with the given name contains a token equal to value with ASCII
case folding. -/
def tokenListContainsValue (header : Header) (name value : GoStr) : Bool :=
  (headerValues header name).any fun s => tokenScanF value (s.length + 1) s

/-- The C7 claim predicate, written from the spec's words: some
comma-separated token of a headers[name] entry, after trimming ASCII
whitespace, equals value under ASCII-only case folding. -/
def splitComma : GoStr → List GoStr
  | [] => [[]]
  | c :: rest =>
    if c = ',' then [] :: splitComma rest
    else
      match splitComma rest with
      | [] => [[c]]
      | r :: rs => (c :: r) :: rs

/-- Trim ASCII whitespace from both ends. -/
def trimWS (s : GoStr) : GoStr :=
  ((s.dropWhile isSpaceChar).reverse.dropWhile isSpaceChar).reverse

/-- The C7 claim predicate, from the spec's words (not from the source). -/
def headerListContainsValueSpec (header : Header) (name value : GoStr) : Bool :=
  (headerValues header name).any fun entry =>
    (splitComma entry).any fun piece => equalASCIIFold (trimWS piece) value

/-- The grammar actually accepted by the scanner of
tokenListContainsValue: OWS token OWS, comma-separated; `some ts` returns
the token list, `none` marks an entry the scanner abandons. Fuel as in
tokenScanF. -/
def tokensOfF : Nat → GoStr → Option (List GoStr)
  | 0, _ => none
  | fuel + 1, s =>
    let t := (nextToken (skipSpace s)).1
    let s1 := (nextToken (skipSpace s)).2
    if t.isEmpty then none
    else
      let s2 := skipSpace s1
      if s2.isEmpty then some [t]
      else if s2.head? = some ',' then (tokensOfF fuel s2.tail).map (fun ts => t :: ts)
      else none

/-- Token list of a well-formed 1#token entry. -/
def tokensOf (s : GoStr) : Option (List GoStr) :=
  tokensOfF (s.length + 1) s

/-- The parameter loop of parseExtensions (`; k [= v]`); `none` models
`continue headers`. -/
def extParamsF : Nat → GoStr → List (GoStr × GoStr) → Option (List (GoStr × GoStr) × GoStr)
  | 0, _, _ => none
  | fuel + 1, s, acc =>
    let s0 := skipSpace s
    if s0.head? ≠ some ';' then some (acc, s0)
    else
      let k := (nextToken (skipSpace s0.tail)).1
      let s1 := (nextToken (skipSpace s0.tail)).2
      if k.isEmpty then none
      else
        let s2 := skipSpace s1
        if s2.head? = some '=' then
          let v := (nextTokenOrQuoted (skipSpace s2.tail)).1
          let s3 := skipSpace (nextTokenOrQuoted (skipSpace s2.tail)).2
          if s3 ≠ [] ∧ s3.head? ≠ some ',' ∧ s3.head? ≠ some ';' then none
          else extParamsF fuel s3 (acc ++ [(k, v)])
        else
          if s2 ≠ [] ∧ s2.head? ≠ some ',' ∧ s2.head? ≠ some ';' then none
          else extParamsF fuel s2 (acc ++ [(k, [])])

/-- The per-entry loop of parseExtensions. Each extension is (name,
parameter list); a malformed extension aborts parsing of the entry but
keeps extensions parsed so far. -/
def parseExtEntryF : Nat → GoStr → List (GoStr × List (GoStr × GoStr)) →
    List (GoStr × List (GoStr × GoStr))
  | 0, _, acc => acc
  | fuel + 1, s, acc =>
    let t := (nextToken (skipSpace s)).1
    let s1 := (nextToken (skipSpace s)).2
    if t.isEmpty then acc
    else
      match extParamsF (s1.length + 1) s1 [] with
      | none => acc
      | some (params, s2) =>
        if s2 ≠ [] ∧ s2.head? ≠ some ',' then acc
        else
          let acc1 := acc ++ [(t, params)]
          if s2.isEmpty then acc1
          else parseExtEntryF fuel s2.tail acc1

/-- From util.go: parseExtensions parses WebSocket extensions from the
Sec-Websocket-Extensions header values. -/
def parseExtensions (h : Header) : List (GoStr × List (GoStr × GoStr)) :=
  (headerValues h (goStr ("Sec-Websocket-Extensions"))).foldl
    (fun acc s => parseExtEntryF (s.length + 1) s acc) []

/-! ## server.go and the newer Upgrader (selectSubprotocol,
checkSameOrigin, Upgrade) -/

/-- The request fields the upgrade path reads. -/
structure Req where
  method : GoStr
  host : GoStr
  headers : Header
deriving DecidableEq

/-- Modelled from Go net/url.Parse (external to the repository),
restricted to origin-shaped absolute URLs: the Host component is what
follows "://" up to the first delimiter; no "://" or an empty remainder
models a URL without a usable authority. -/
def findSchemeSep : GoStr → Option GoStr
  | [] => none
  | ':' :: '/' :: '/' :: rest => some rest
  | _ :: rest => findSchemeSep rest

/-- Host of a parsed origin URL. -/
def urlHost (u : GoStr) : Option GoStr :=
  match findSchemeSep u with
  | none => none
  | some rest => some (rest.takeWhile (fun c => ¬ (c = '/' ∨ c = '?' ∨ c = '#')))

/-- From the newer server code: checkSameOrigin returns true if the
origin is not set or is equal to the request host under ASCII case
folding; an unparseable origin is rejected. -/
def checkSameOrigin (r : Req) : Bool :=
  match headerLookup r.headers (goStr ("Origin")) with
  | none => true
  | some [] => true
  | some (o :: _) =>
    match urlHost o with
    | none => false
    | some hst => equalASCIIFold hst r.host

/-- From server.go (older Upgrader variant): its checkSameOrigin method
REJECTS a request without an Origin header and compares the parsed host
with the request host by exact string equality. -/
def checkSameOriginOld (r : Req) : Bool :=
  let origin := headerGet r.headers (goStr ("Origin"))
  if origin.isEmpty then false
  else
    match urlHost origin with
    | none => false
    | some hst => hst == r.host

/-- From the newer server code: Subprotocols parses the client's
Sec-WebSocket-Protocol header (Get canonicalises the name); `none` is
Go's nil slice for an absent or blank header. -/
def Subprotocols (r : Req) : Option (List GoStr) :=
  let h := trimWS (headerGet r.headers (goStr ("Sec-Websocket-Protocol")))
  if h.isEmpty then none
  else some ((splitComma h).map trimWS)

/-- From the newer server code: firstMatching returns the first matching
element present in both slices and whether a match has been found (the
outer loop ranges over `as`, the inner over `bs`). -/
def firstMatching (as bs : List GoStr) : GoStr × Bool :=
  match as with
  | [] => ([], false)
  | a :: rest => if bs.contains a then (a, true) else firstMatching rest bs

/-- From the newer server code: selectSubprotocol. Note that the
responseHeader branch indexes the raw key "Sec-WebSocket-Protocol" while
the Upgrader.Subprotocols branch matches the server list against the
client tokens, server preference first. -/
def selectSubprotocol (subprotocols : Option (List GoStr)) (r : Req)
    (responseHeader : Header) : GoStr × Bool :=
  let clientProtocols := Subprotocols r
  match headerLookup responseHeader (goStr ("Sec-WebSocket-Protocol")) with
  | some responseProtocols => firstMatching responseProtocols (clientProtocols.getD [])
  | none =>
    match subprotocols with
    | some sps => firstMatching sps (clientProtocols.getD [])
    | none => if clientProtocols.isNone then ([], true) else ([], false)

/-- The Upgrader configuration fields the upgrade path reads. -/
structure Upgrader where
  subprotocols : Option (List GoStr)
  checkOrigin : Option (Req → Bool)
  enableCompression : Bool

/-- The hijacked-connection environment of one Upgrade call: whether the
ResponseWriter supports hijacking, whether Hijack errors, how many bytes
the hijacked reader has buffered, and whether the network write
succeeds. -/
structure HijackCtx where
  hijackable : Bool
  hijackErr : Bool
  buffered : Nat
  writeOk : Bool
deriving DecidableEq

/-- The error cases of Upgrade. -/
inductive UpgErr
  | badConnectionHeader
  | badUpgradeHeader
  | badMethod
  | badVersion
  | extHeader
  | originFail
  | keyMissing
  | subprotocolFail
  | noHijack
  | hijackFailed
  | bufferedData
  | writeFailed
deriving DecidableEq

/-- Result of one Upgrade call: the connection (negotiated subprotocol
and compression flag), the error, the HTTP status of the error response
written via the ResponseWriter (returnError), and the bytes written to
the hijacked network connection. -/
structure UpgOut where
  conn : Option (GoStr × Bool)
  err : Option UpgErr
  httpStatus : Option Nat
  netWritten : List Nat
deriving DecidableEq

/-- CTL octets in application response header values are replaced by
spaces to prevent response splitting. -/
def sanitizeByte (b : Nat) : Nat := if b ≤ 31 then 32 else b

/-- The 101 response bytes built by Upgrade (application headers are
emitted in association-list order; Go map iteration order is
unspecified). -/
def upgradeResponseBytes (acceptKey : List Char) (subprotocol : GoStr) (compress : Bool)
    (responseHeader : Header) : List Nat :=
  goBytes ("HTTP/1.1 101 Switching Protocols\r\nUpgrade: websocket\r\nConnection: Upgrade\r\nSec-WebSocket-Accept: ") ++
  acceptKey.map Char.toNat ++ goBytes ("\r\n") ++
  (if subprotocol.isEmpty then [] else
    goBytes ("Sec-WebSocket-Protocol: ") ++ subprotocol.map Char.toNat ++ goBytes ("\r\n")) ++
  (if compress then
    goBytes ("Sec-WebSocket-Extensions: permessage-deflate; server_no_context_takeover; client_no_context_takeover\r\n")
  else []) ++
  ((responseHeader.filter (fun kv => ¬ (kv.1 == goStr ("Sec-Websocket-Protocol")))).map
    (fun kv => (kv.2.map (fun v =>
      kv.1.map Char.toNat ++ goBytes (": ") ++ (v.map Char.toNat).map sanitizeByte ++
        goBytes ("\r\n"))).flatten)).flatten ++
  goBytes ("\r\n")

/-- From the newer server code: Upgrader.Upgrade. Validations run in
source order; each failure returns through returnError (writing an HTTP
error via the ResponseWriter, never the hijacked connection) except the
buffered-data and net-write failures, which return bare errors. Only
after every check passes is the 101 response written to the network
connection. -/
def upgradeTail (u : Upgrader) (r : Req) (responseHeader : Option Header) (h : HijackCtx) : UpgOut :=
  let challengeKey := headerGet r.headers (goStr ("Sec-Websocket-Key"))
  if challengeKey.isEmpty then
    ⟨none, some UpgErr.keyMissing, some 400, []⟩
  else
    match selectSubprotocol u.subprotocols r (responseHeader.getD []) with
    | (_, false) => ⟨none, some UpgErr.subprotocolFail, some 400, []⟩
    | (subprotocol, true) =>
      let compress := u.enableCompression &&
        (parseExtensions r.headers).any (fun ext => ext.1 == goStr ("permessage-deflate"))
      if ¬ h.hijackable then ⟨none, some UpgErr.noHijack, some 500, []⟩
      else if h.hijackErr then ⟨none, some UpgErr.hijackFailed, some 500, []⟩
      else if h.buffered > 0 then ⟨none, some UpgErr.bufferedData, none, []⟩
      else
        let p := upgradeResponseBytes (computeAcceptKey (challengeKey.map Char.toNat))
          subprotocol compress (responseHeader.getD [])
        if ¬ h.writeOk then ⟨none, some UpgErr.writeFailed, none, p⟩
        else ⟨some (subprotocol, compress), none, none, p⟩

/-- The validation sequence of Upgrade; on passing every early check it
continues with upgradeTail (the key/subprotocol/hijack/write part). -/
def Upgrade (u : Upgrader) (r : Req) (responseHeader : Option Header) (h : HijackCtx) : UpgOut :=
  if ¬ tokenListContainsValue r.headers (goStr ("Connection")) (goStr ("upgrade")) then
    ⟨none, some UpgErr.badConnectionHeader, some 400, []⟩
  else if ¬ tokenListContainsValue r.headers (goStr ("Upgrade")) (goStr ("websocket")) then
    ⟨none, some UpgErr.badUpgradeHeader, some 400, []⟩
  else if r.method ≠ goStr ("GET") then
    ⟨none, some UpgErr.badMethod, some 405, []⟩
  else if ¬ tokenListContainsValue r.headers (goStr ("Sec-Websocket-Version")) (goStr ("13")) then
    ⟨none, some UpgErr.badVersion, some 400, []⟩
  else if (headerLookup (responseHeader.getD []) (goStr ("Sec-Websocket-Extensions"))).isSome then
    ⟨none, some UpgErr.extHeader, some 500, []⟩
  else if (match u.checkOrigin with
           | some f => f r
           | none => checkSameOrigin r) = false then
    ⟨none, some UpgErr.originFail, some 403, []⟩
  else upgradeTail u r responseHeader h

/-! ## proxy.go: httpProxyDialer -/

/-- The fields of the proxy URL that Dial reads: the optional userinfo
(username and optional password) and the proxy address (the host:port
that hostPortNoPort produces). -/
structure ProxyURL where
  user : Option (GoStr × Option GoStr)
  host : GoStr
deriving DecidableEq

/-- The Proxy-Authorization header set on the CONNECT request: present
exactly when the proxy URL has a user with a set password. -/
def proxyAuthHeader (user : Option (GoStr × Option GoStr)) : Option GoStr :=
  match user with
  | some (u, some pw) =>
    some (goStr ("Basic ") ++ base64Encode ((u ++ [':'] ++ pw).map Char.toNat))
  | _ => none

/-- The CONNECT response fields Dial reads. -/
structure ProxyResp where
  statusCode : Nat
  status : GoStr
deriving DecidableEq

/-- strings.SplitN(s, " ", 2). -/
def splitN2 (s : GoStr) : List GoStr :=
  match s.findIdx? (fun c => c = ' ') with
  | none => [s]
  | some i => [s.take i, s.drop (i + 1)]

/-- How an httpProxyDialer.Dial call ends once a response has been read:
tunnel established, an error carrying the status text, or the
index-out-of-range panic of `f[1]` when the split has one element. -/
inductive DialOutcome
  | tunnel
  | failErr (msg : GoStr)
  | panicked
deriving DecidableEq

/-- What Dial sent: the forward-dial target (the proxy address) and the
CONNECT request's Host (the backend address) and auth header. -/
structure ProxyDialTrace where
  dialAddr : GoStr
  connectHost : GoStr
  authHeader : Option GoStr
deriving DecidableEq

/-- From proxy.go httpProxyDialer.Dial, given the proxy's response to the
CONNECT request (transport errors short-circuit earlier and are not
modelled): succeed exactly on status code 200, otherwise close the
connection and fail with the second field of SplitN(resp.Status, " ", 2)
— which panics when resp.Status contains no space. -/
def httpProxyDial (purl : ProxyURL) (addr : GoStr) (resp : ProxyResp) :
    ProxyDialTrace × DialOutcome :=
  let trace : ProxyDialTrace := ⟨purl.host, addr, proxyAuthHeader purl.user⟩
  if resp.statusCode ≠ 200 then
    match (splitN2 resp.status).get? 1 with
    | some t => (trace, DialOutcome.failErr t)
    | none => (trace, DialOutcome.panicked)
  else (trace, DialOutcome.tunnel)

/-- Modelled from Go net/http ReadResponse (external to the repository):
the status line is cut at its first space; resp.Status is the remainder
with leading spaces trimmed; the first space-separated field of Status
must be a 3-digit number, the status code. -/
def parseNatDigits (s : GoStr) : Option Nat :=
  if s.isEmpty then none
  else
    s.foldl (fun acc c =>
      match acc with
      | none => none
      | some n => if '0' ≤ c ∧ c ≤ '9' then some (10 * n + (c.toNat - 48)) else none)
      (some 0)

/-- Status and StatusCode of a parsed response status line. -/
def readRespStatusLine (line : GoStr) : Option (GoStr × Nat) :=
  match line.findIdx? (fun c => c = ' ') with
  | none => none
  | some i =>
    let status := (line.drop (i + 1)).dropWhile (fun c => c = ' ')
    let code := status.takeWhile (fun c => c ≠ ' ')
    if code.length ≠ 3 then none
    else
      match parseNatDigits code with
      | none => none
      | some n => some (status, n)

/-! ### Arithmetic toolbox for the mask proof -/

theorem testBit_addMul (a b n i : Nat) (ha : a < 2 ^ n) :
    (a + 2 ^ n * b).testBit i = if i < n then a.testBit i else b.testBit (i - n) := by
  rcases Nat.lt_or_ge i n with h | h
  · rw [if_pos h, Nat.testBit_to_div_mod, Nat.testBit_to_div_mod]
    have hsplit : (2 : Nat) ^ n = 2 ^ i * 2 ^ (n - i) := by
      rw [← pow_add]
      congr 1
      omega
    rw [hsplit, Nat.mul_assoc, Nat.add_mul_div_left _ _ (Nat.two_pow_pos i)]
    obtain ⟨m, hm⟩ : ∃ m, n - i = m + 1 := ⟨n - i - 1, by omega⟩
    have h1 : (2 : Nat) ^ (n - i) * b = 2 ^ m * b * 2 := by
      rw [hm, pow_succ]
      ring
    rw [h1, Nat.add_mul_mod_self_right]
  · rw [if_neg (Nat.not_lt.mpr h), Nat.testBit_to_div_mod, Nat.testBit_to_div_mod]
    have hsplit : (2 : Nat) ^ i = 2 ^ n * 2 ^ (i - n) := by
      rw [← pow_add]
      congr 1
      omega
    have hdiv : (a + 2 ^ n * b) / 2 ^ i = b / 2 ^ (i - n) := by
      rw [hsplit, ← Nat.div_div_eq_div_mul, Nat.add_mul_div_left _ _ (Nat.two_pow_pos n),
        Nat.div_eq_of_lt ha, Nat.zero_add]
    rw [hdiv]

theorem lor_eq_addMul (a b n : Nat) (ha : a < 2 ^ n) :
    a ||| 2 ^ n * b = a + 2 ^ n * b := by
  apply Nat.eq_of_testBit_eq
  intro i
  rw [Nat.testBit_lor, testBit_addMul a b n i ha]
  have hsh : 2 ^ n * b = b <<< n := by
    rw [Nat.shiftLeft_eq, Nat.mul_comm]
  rw [hsh, Nat.testBit_shiftLeft]
  by_cases h : i < n
  · simp [h, Nat.not_le.mpr h]
  · have hin : n ≤ i := Nat.le_of_not_lt h
    have hai : a.testBit i = false :=
      Nat.testBit_lt_two_pow (lt_of_lt_of_le ha (Nat.pow_le_pow_right (by norm_num) hin))
    simp [h, hai, hin]

theorem or_shiftLeft_byte (x b k : Nat) (hx : x < 2 ^ k) :
    x ||| b <<< k = x + 2 ^ k * b := by
  rw [Nat.shiftLeft_eq, Nat.mul_comm, lor_eq_addMul x b k hx]

theorem xor_digit (a b c d : Nat) (ha : a < 256) (hc : c < 256) :
    (a + 256 * b) ^^^ (c + 256 * d) = (a ^^^ c) + 256 * (b ^^^ d) := by
  have h8 : (256 : Nat) = 2 ^ 8 := by norm_num
  rw [h8] at ha hc ⊢
  apply Nat.eq_of_testBit_eq
  intro i
  rw [Nat.testBit_xor, testBit_addMul a b 8 i ha, testBit_addMul c d 8 i hc,
    testBit_addMul _ _ 8 i (Nat.xor_lt_two_pow ha hc)]
  by_cases h : i < 8 <;> simp [h, Nat.testBit_xor]

theorem and3_eq_mod (p : Nat) : p &&& 3 = p % 4 := by
  apply Nat.eq_of_testBit_eq
  intro i
  have h4 : (4 : Nat) = 2 ^ 2 := by norm_num
  rw [Nat.testBit_land, h4, Nat.testBit_mod_two_pow]
  have h3 : Nat.testBit 3 i = decide (i < 2) := by
    match i with
    | 0 => rfl
    | 1 => rfl
    | n + 2 =>
      have h4le : (4 : Nat) ≤ 2 ^ (n + 2) := by
        have := Nat.pow_le_pow_right (show 0 < 2 by norm_num) (show 2 ≤ n + 2 by omega)
        simpa using this
      have hlt : (3 : Nat) < 2 ^ (n + 2) := by omega
      simp [Nat.testBit_lt_two_pow hlt]
  rw [h3, Bool.and_comm]

theorem bytesToNatLE_lt : ∀ bs : List Nat, (∀ b ∈ bs, b < 256) →
    bytesToNatLE bs < 256 ^ bs.length := by
  intro bs
  induction bs with
  | nil => intro; simp [bytesToNatLE]
  | cons b bs ih =>
    intro h
    have hb := h b (List.mem_cons_self b bs)
    have ht := ih fun x hx => h x (List.mem_cons_of_mem _ hx)
    simp only [bytesToNatLE, List.length_cons, pow_succ]
    omega

theorem bytesToNatLE_append : ∀ xs ys : List Nat,
    bytesToNatLE (xs ++ ys) = bytesToNatLE xs + 256 ^ xs.length * bytesToNatLE ys := by
  intro xs ys
  induction xs with
  | nil => simp [bytesToNatLE]
  | cons x xs ih =>
    have hstep : bytesToNatLE ((x :: xs) ++ ys) = x + 256 * bytesToNatLE (xs ++ ys) := rfl
    rw [hstep, ih, List.length_cons, pow_succ]
    simp only [bytesToNatLE]
    ring

theorem bytesToNatLE_xor : ∀ xs ys : List Nat, xs.length = ys.length →
    (∀ b ∈ xs, b < 256) → (∀ b ∈ ys, b < 256) →
    bytesToNatLE xs ^^^ bytesToNatLE ys = bytesToNatLE (List.zipWith (· ^^^ ·) xs ys) := by
  intro xs
  induction xs with
  | nil =>
    intro ys h _ _
    cases ys with
    | nil => rfl
    | cons y ys => simp at h
  | cons x xs ih =>
    intro ys hlen hx hy
    cases ys with
    | nil => simp at hlen
    | cons y ys =>
      simp only [bytesToNatLE, List.zipWith]
      rw [xor_digit x _ y _ (hx x (List.mem_cons_self x xs)) (hy y (List.mem_cons_self y ys)),
        ih ys (by simpa using hlen) (fun b hb => hx b (List.mem_cons_of_mem _ hb))
          (fun b hb => hy b (List.mem_cons_of_mem _ hb))]

/-! ### Correctness of the word-at-a-time mask path -/

theorem leUint32_eq (b0 b1 b2 b3 : Nat)
    (h0 : b0 < 256) (h1 : b1 < 256) (h2 : b2 < 256) (h3 : b3 < 256) :
    leUint32 b0 b1 b2 b3 = bytesToNatLE [b0, b1, b2, b3] := by
  unfold leUint32
  rw [or_shiftLeft_byte b0 b1 8 (by omega),
    or_shiftLeft_byte _ b2 16 (by omega),
    or_shiftLeft_byte _ b3 24 (by omega)]
  simp only [bytesToNatLE]
  omega

theorem leUint64_eq (b0 b1 b2 b3 b4 b5 b6 b7 : Nat) (rest : List Nat)
    (h0 : b0 < 256) (h1 : b1 < 256) (h2 : b2 < 256) (h3 : b3 < 256)
    (h4 : b4 < 256) (h5 : b5 < 256) (h6 : b6 < 256) (h7 : b7 < 256) :
    leUint64 (b0 :: b1 :: b2 :: b3 :: b4 :: b5 :: b6 :: b7 :: rest) =
      bytesToNatLE [b0, b1, b2, b3, b4, b5, b6, b7] := by
  show b0 ||| (b1 <<< 8) ||| (b2 <<< 16) ||| (b3 <<< 24) ||| (b4 <<< 32) |||
      (b5 <<< 40) ||| (b6 <<< 48) ||| (b7 <<< 56) = _
  rw [or_shiftLeft_byte b0 b1 8 (by omega),
    or_shiftLeft_byte _ b2 16 (by omega),
    or_shiftLeft_byte _ b3 24 (by omega),
    or_shiftLeft_byte _ b4 32 (by omega),
    or_shiftLeft_byte _ b5 40 (by omega),
    or_shiftLeft_byte _ b6 48 (by omega),
    or_shiftLeft_byte _ b7 56 (by omega)]
  simp only [bytesToNatLE]
  omega

theorem lePutUint64_bytes (b0 b1 b2 b3 b4 b5 b6 b7 : Nat)
    (h0 : b0 < 256) (h1 : b1 < 256) (h2 : b2 < 256) (h3 : b3 < 256)
    (h4 : b4 < 256) (h5 : b5 < 256) (h6 : b6 < 256) (h7 : b7 < 256) :
    lePutUint64 (bytesToNatLE [b0, b1, b2, b3, b4, b5, b6, b7]) =
      [b0, b1, b2, b3, b4, b5, b6, b7] := by
  simp only [lePutUint64, bytesToNatLE, Nat.shiftRight_eq_div_pow, List.cons.injEq, and_true]
  norm_num
  omega

theorem maskByteLoop_eq (key : List Nat) : ∀ pos bs,
    maskByteLoop key pos bs = maskRef key pos bs := by
  intro pos bs
  induction bs generalizing pos with
  | nil => rfl
  | cons b bs ih => simp [maskByteLoop, maskRef, and3_eq_mod, ih]

theorem maskRef_congr_mod (key : List Nat) : ∀ bs p q, p % 4 = q % 4 →
    maskRef key p bs = maskRef key q bs := by
  intro bs
  induction bs with
  | nil => intro p q _; rfl
  | cons b bs ih =>
    intro p q h
    simp only [maskRef, h]
    rw [ih (p + 1) (q + 1) (by omega)]

theorem maskRef_append (key : List Nat) : ∀ xs ys pos,
    maskRef key pos (xs ++ ys) = maskRef key pos xs ++ maskRef key (pos + xs.length) ys := by
  intro xs
  induction xs with
  | nil => intro ys pos; simp [maskRef]
  | cons x xs ih =>
    intro ys pos
    have hmr : maskRef key pos (x :: (xs ++ ys)) =
        (x ^^^ key.getD (pos % 4) 0) :: maskRef key (pos + 1) (xs ++ ys) := rfl
    have hmr2 : maskRef key pos (x :: xs) =
        (x ^^^ key.getD (pos % 4) 0) :: maskRef key (pos + 1) xs := rfl
    rw [show (x :: xs) ++ ys = x :: (xs ++ ys) from rfl, hmr, hmr2, ih ys (pos + 1)]
    simp only [List.cons_append, List.length_cons]
    rw [show pos + (xs.length + 1) = pos + 1 + xs.length by omega]

theorem xor_lt_256 (a b : Nat) (ha : a < 256) (hb : b < 256) : a ^^^ b < 256 := by
  have h8 : (256 : Nat) = 2 ^ 8 := by norm_num
  rw [h8] at ha hb ⊢
  exact Nat.xor_lt_two_pow ha hb

theorem key64_rot (k0 k1 k2 k3 : Nat)
    (h0 : k0 < 256) (h1 : k1 < 256) (h2 : k2 < 256) (h3 : k3 < 256)
    (pos : Nat) (hpos : pos < 4) :
    rotateLeft64 (leUint32 k0 k1 k2 k3 ||| (leUint32 k0 k1 k2 k3 <<< 32)) (-(pos : Int) * 8) =
      bytesToNatLE (List.drop pos [k0, k1, k2, k3, k0, k1, k2, k3] ++
        List.take pos [k0, k1, k2, k3, k0, k1, k2, k3]) := by
  have h32bound : bytesToNatLE [k0, k1, k2, k3] < 2 ^ 32 := by
    have hp : (256 : Nat) ^ 4 = 2 ^ 32 := by norm_num
    have := bytesToNatLE_lt [k0, k1, k2, k3]
      (by intro b hb; simp at hb; rcases hb with h | h | h | h <;> omega)
    simp only [List.length_cons, List.length_nil] at this
    omega
  have hk8 : leUint32 k0 k1 k2 k3 ||| (leUint32 k0 k1 k2 k3 <<< 32) =
      bytesToNatLE [k0, k1, k2, k3, k0, k1, k2, k3] := by
    rw [leUint32_eq k0 k1 k2 k3 h0 h1 h2 h3, or_shiftLeft_byte _ _ 32 h32bound]
    simp only [bytesToNatLE]
    omega
  have h64bound : bytesToNatLE [k0, k1, k2, k3, k0, k1, k2, k3] < 2 ^ 64 := by
    have hp : (256 : Nat) ^ 8 = 2 ^ 64 := by norm_num
    have := bytesToNatLE_lt [k0, k1, k2, k3, k0, k1, k2, k3]
      (by intro b hb; simp at hb; rcases hb with h | h | h | h <;> omega)
    simp only [List.length_cons, List.length_nil] at this
    omega
  rw [hk8]
  interval_cases pos
  · have hrw : ∀ x : Nat, rotateLeft64 x (-((0 : Nat) : Int) * 8) =
        ((x <<< 0) % 2 ^ 64) ||| (x >>> (64 - 0)) := fun x => rfl
    rw [hrw, Nat.shiftLeft_zero, Nat.mod_eq_of_lt h64bound, Nat.shiftRight_eq_div_pow,
      Nat.div_eq_of_lt h64bound]
    simp
  · have hrw : ∀ x : Nat, rotateLeft64 x (-((1 : Nat) : Int) * 8) =
        ((x <<< 56) % 2 ^ 64) ||| (x >>> (64 - 56)) := fun x => rfl
    rw [hrw]
    have hb7 : bytesToNatLE [k1, k2, k3, k0, k1, k2, k3] < 2 ^ 56 := by
      have hp : (256 : Nat) ^ 7 = 2 ^ 56 := by norm_num
      have := bytesToNatLE_lt [k1, k2, k3, k0, k1, k2, k3]
        (by intro b hb; simp at hb; rcases hb with h | h | h | h <;> omega)
      simp only [List.length_cons, List.length_nil] at this
      omega
    have hdiv : bytesToNatLE [k0, k1, k2, k3, k0, k1, k2, k3] >>> (64 - 56) =
        bytesToNatLE [k1, k2, k3, k0, k1, k2, k3] := by
      rw [Nat.shiftRight_eq_div_pow]
      simp only [bytesToNatLE]
      omega
    have hshift : (bytesToNatLE [k0, k1, k2, k3, k0, k1, k2, k3] <<< 56) % 2 ^ 64 =
        (bytesToNatLE [k0, k1, k2, k3, k0, k1, k2, k3] % 2 ^ 8) * 2 ^ 56 := by
      rw [Nat.shiftLeft_eq, show (2 : Nat) ^ 64 = 2 ^ 8 * 2 ^ 56 by norm_num,
        Nat.mul_mod_mul_right]
    have hmod : bytesToNatLE [k0, k1, k2, k3, k0, k1, k2, k3] % 2 ^ 8 = k0 := by
      simp only [bytesToNatLE]
      omega
    rw [hshift, hmod, hdiv, Nat.lor_comm, show k0 * 2 ^ 56 = 2 ^ 56 * k0 by ring,
      lor_eq_addMul _ k0 56 hb7]
    simp only [bytesToNatLE, List.drop, List.take, List.append_eq, List.cons_append,
      List.nil_append]
    omega
  · have hrw : ∀ x : Nat, rotateLeft64 x (-((2 : Nat) : Int) * 8) =
        ((x <<< 48) % 2 ^ 64) ||| (x >>> (64 - 48)) := fun x => rfl
    rw [hrw]
    have hb6 : bytesToNatLE [k2, k3, k0, k1, k2, k3] < 2 ^ 48 := by
      have hp : (256 : Nat) ^ 6 = 2 ^ 48 := by norm_num
      have := bytesToNatLE_lt [k2, k3, k0, k1, k2, k3]
        (by intro b hb; simp at hb; rcases hb with h | h | h | h <;> omega)
      simp only [List.length_cons, List.length_nil] at this
      omega
    have hdiv : bytesToNatLE [k0, k1, k2, k3, k0, k1, k2, k3] >>> (64 - 48) =
        bytesToNatLE [k2, k3, k0, k1, k2, k3] := by
      rw [Nat.shiftRight_eq_div_pow]
      simp only [bytesToNatLE]
      omega
    have hshift : (bytesToNatLE [k0, k1, k2, k3, k0, k1, k2, k3] <<< 48) % 2 ^ 64 =
        (bytesToNatLE [k0, k1, k2, k3, k0, k1, k2, k3] % 2 ^ 16) * 2 ^ 48 := by
      rw [Nat.shiftLeft_eq, show (2 : Nat) ^ 64 = 2 ^ 16 * 2 ^ 48 by norm_num,
        Nat.mul_mod_mul_right]
    have hmod : bytesToNatLE [k0, k1, k2, k3, k0, k1, k2, k3] % 2 ^ 16 = k0 + 256 * k1 := by
      simp only [bytesToNatLE]
      omega
    rw [hshift, hmod, hdiv, Nat.lor_comm,
      show (k0 + 256 * k1) * 2 ^ 48 = 2 ^ 48 * (k0 + 256 * k1) by ring,
      lor_eq_addMul _ _ 48 hb6]
    simp only [bytesToNatLE, List.drop, List.take, List.append_eq, List.cons_append,
      List.nil_append]
    omega
  · have hrw : ∀ x : Nat, rotateLeft64 x (-((3 : Nat) : Int) * 8) =
        ((x <<< 40) % 2 ^ 64) ||| (x >>> (64 - 40)) := fun x => rfl
    rw [hrw]
    have hb5 : bytesToNatLE [k3, k0, k1, k2, k3] < 2 ^ 40 := by
      have hp : (256 : Nat) ^ 5 = 2 ^ 40 := by norm_num
      have := bytesToNatLE_lt [k3, k0, k1, k2, k3]
        (by intro b hb; simp at hb; rcases hb with h | h | h | h <;> omega)
      simp only [List.length_cons, List.length_nil] at this
      omega
    have hdiv : bytesToNatLE [k0, k1, k2, k3, k0, k1, k2, k3] >>> (64 - 40) =
        bytesToNatLE [k3, k0, k1, k2, k3] := by
      rw [Nat.shiftRight_eq_div_pow]
      simp only [bytesToNatLE]
      omega
    have hshift : (bytesToNatLE [k0, k1, k2, k3, k0, k1, k2, k3] <<< 40) % 2 ^ 64 =
        (bytesToNatLE [k0, k1, k2, k3, k0, k1, k2, k3] % 2 ^ 24) * 2 ^ 40 := by
      rw [Nat.shiftLeft_eq, show (2 : Nat) ^ 64 = 2 ^ 24 * 2 ^ 40 by norm_num,
        Nat.mul_mod_mul_right]
    have hmod : bytesToNatLE [k0, k1, k2, k3, k0, k1, k2, k3] % 2 ^ 24 =
        k0 + 256 * k1 + 65536 * k2 := by
      simp only [bytesToNatLE]
      omega
    rw [hshift, hmod, hdiv, Nat.lor_comm,
      show (k0 + 256 * k1 + 65536 * k2) * 2 ^ 40 = 2 ^ 40 * (k0 + 256 * k1 + 65536 * k2) by ring,
      lor_eq_addMul _ _ 40 hb5]
    simp only [bytesToNatLE, List.drop, List.take, List.append_eq, List.cons_append,
      List.nil_append]
    omega

theorem mask_chunk (k0 k1 k2 k3 : Nat)
    (h0 : k0 < 256) (h1 : k1 < 256) (h2 : k2 < 256) (h3 : k3 < 256)
    (pos : Nat) (hpos : pos < 4) :
    ∀ bs : List Nat, 8 ≤ bs.length → (∀ b ∈ bs, b < 256) →
      lePutUint64 (leUint64 bs ^^^
          rotateLeft64 (leUint32 k0 k1 k2 k3 ||| (leUint32 k0 k1 k2 k3 <<< 32))
            (-(pos : Int) * 8)) =
        maskRef [k0, k1, k2, k3] pos (bs.take 8) := by
  intro bs hlen hb
  rcases bs with _ | ⟨b0, bs⟩; · simp at hlen
  rcases bs with _ | ⟨b1, bs⟩; · simp at hlen
  rcases bs with _ | ⟨b2, bs⟩; · simp at hlen
  rcases bs with _ | ⟨b3, bs⟩; · simp at hlen
  rcases bs with _ | ⟨b4, bs⟩; · simp at hlen
  rcases bs with _ | ⟨b5, bs⟩; · simp at hlen
  rcases bs with _ | ⟨b6, bs⟩; · simp at hlen
  rcases bs with _ | ⟨b7, bs⟩; · simp at hlen
  have hb0 : b0 < 256 := hb _ (by simp)
  have hb1 : b1 < 256 := hb _ (by simp)
  have hb2 : b2 < 256 := hb _ (by simp)
  have hb3 : b3 < 256 := hb _ (by simp)
  have hb4 : b4 < 256 := hb _ (by simp)
  have hb5 : b5 < 256 := hb _ (by simp)
  have hb6 : b6 < 256 := hb _ (by simp)
  have hb7 : b7 < 256 := hb _ (by simp)
  have hball : ∀ b ∈ [b0, b1, b2, b3, b4, b5, b6, b7], b < 256 := by
    intro b hbm
    simp at hbm
    rcases hbm with h | h | h | h | h | h | h | h <;> omega
  rw [key64_rot k0 k1 k2 k3 h0 h1 h2 h3 pos hpos,
    leUint64_eq b0 b1 b2 b3 b4 b5 b6 b7 _ hb0 hb1 hb2 hb3 hb4 hb5 hb6 hb7]
  have hkall : ∀ b ∈ [k0, k1, k2, k3, k0, k1, k2, k3], b < 256 := by
    intro b hbm
    simp at hbm
    rcases hbm with h | h | h | h <;> omega
  interval_cases pos
  · have hkrot : List.drop 0 [k0, k1, k2, k3, k0, k1, k2, k3] ++
        List.take 0 [k0, k1, k2, k3, k0, k1, k2, k3] = [k0, k1, k2, k3, k0, k1, k2, k3] := by simp
    rw [hkrot, bytesToNatLE_xor [b0, b1, b2, b3, b4, b5, b6, b7] [k0, k1, k2, k3, k0, k1, k2, k3] rfl hball hkall]
    simp only [List.zipWith_cons_cons, List.zipWith_nil_left]
    rw [lePutUint64_bytes _ _ _ _ _ _ _ _ (xor_lt_256 _ _ hb0 h0) (xor_lt_256 _ _ hb1 h1)
      (xor_lt_256 _ _ hb2 h2) (xor_lt_256 _ _ hb3 h3) (xor_lt_256 _ _ hb4 h0)
      (xor_lt_256 _ _ hb5 h1) (xor_lt_256 _ _ hb6 h2) (xor_lt_256 _ _ hb7 h3)]
    rfl
  · have hkrot : List.drop 1 [k0, k1, k2, k3, k0, k1, k2, k3] ++
        List.take 1 [k0, k1, k2, k3, k0, k1, k2, k3] = [k1, k2, k3, k0, k1, k2, k3, k0] := by simp
    have hkall1 : ∀ b ∈ [k1, k2, k3, k0, k1, k2, k3, k0], b < 256 := by
      intro b hbm
      simp at hbm
      rcases hbm with h | h | h | h <;> omega
    rw [hkrot, bytesToNatLE_xor [b0, b1, b2, b3, b4, b5, b6, b7] [k1, k2, k3, k0, k1, k2, k3, k0] rfl hball hkall1]
    simp only [List.zipWith_cons_cons, List.zipWith_nil_left]
    rw [lePutUint64_bytes _ _ _ _ _ _ _ _ (xor_lt_256 _ _ hb0 h1) (xor_lt_256 _ _ hb1 h2)
      (xor_lt_256 _ _ hb2 h3) (xor_lt_256 _ _ hb3 h0) (xor_lt_256 _ _ hb4 h1)
      (xor_lt_256 _ _ hb5 h2) (xor_lt_256 _ _ hb6 h3) (xor_lt_256 _ _ hb7 h0)]
    rfl
  · have hkrot : List.drop 2 [k0, k1, k2, k3, k0, k1, k2, k3] ++
        List.take 2 [k0, k1, k2, k3, k0, k1, k2, k3] = [k2, k3, k0, k1, k2, k3, k0, k1] := by simp
    have hkall2 : ∀ b ∈ [k2, k3, k0, k1, k2, k3, k0, k1], b < 256 := by
      intro b hbm
      simp at hbm
      rcases hbm with h | h | h | h <;> omega
    rw [hkrot, bytesToNatLE_xor [b0, b1, b2, b3, b4, b5, b6, b7] [k2, k3, k0, k1, k2, k3, k0, k1] rfl hball hkall2]
    simp only [List.zipWith_cons_cons, List.zipWith_nil_left]
    rw [lePutUint64_bytes _ _ _ _ _ _ _ _ (xor_lt_256 _ _ hb0 h2) (xor_lt_256 _ _ hb1 h3)
      (xor_lt_256 _ _ hb2 h0) (xor_lt_256 _ _ hb3 h1) (xor_lt_256 _ _ hb4 h2)
      (xor_lt_256 _ _ hb5 h3) (xor_lt_256 _ _ hb6 h0) (xor_lt_256 _ _ hb7 h1)]
    rfl
  · have hkrot : List.drop 3 [k0, k1, k2, k3, k0, k1, k2, k3] ++
        List.take 3 [k0, k1, k2, k3, k0, k1, k2, k3] = [k3, k0, k1, k2, k3, k0, k1, k2] := by simp
    have hkall3 : ∀ b ∈ [k3, k0, k1, k2, k3, k0, k1, k2], b < 256 := by
      intro b hbm
      simp at hbm
      rcases hbm with h | h | h | h <;> omega
    rw [hkrot, bytesToNatLE_xor [b0, b1, b2, b3, b4, b5, b6, b7] [k3, k0, k1, k2, k3, k0, k1, k2] rfl hball hkall3]
    simp only [List.zipWith_cons_cons, List.zipWith_nil_left]
    rw [lePutUint64_bytes _ _ _ _ _ _ _ _ (xor_lt_256 _ _ hb0 h3) (xor_lt_256 _ _ hb1 h0)
      (xor_lt_256 _ _ hb2 h1) (xor_lt_256 _ _ hb3 h2) (xor_lt_256 _ _ hb4 h3)
      (xor_lt_256 _ _ hb5 h0) (xor_lt_256 _ _ hb6 h1) (xor_lt_256 _ _ hb7 h2)]
    rfl

theorem maskWordLoop_spec (key : List Nat) (key64 : Nat) (pos : Nat)
    (hchunk : ∀ bs : List Nat, 8 ≤ bs.length → (∀ b ∈ bs, b < 256) →
      lePutUint64 (leUint64 bs ^^^ key64) = maskRef key pos (bs.take 8)) :
    ∀ fuel bs, (∀ b ∈ bs, b < 256) →
      maskWordLoop key key64 pos fuel bs = (maskRef key pos bs, (pos + bs.length) &&& 3) := by
  intro fuel
  induction fuel with
  | zero => intro bs _; simp [maskWordLoop, maskByteLoop_eq]
  | succ fuel ih =>
    intro bs hb
    by_cases hlen : bs.length > 7
    · have hdropb : ∀ b ∈ bs.drop 8, b < 256 := fun b hbm => hb b (List.drop_subset 8 bs hbm)
      simp only [maskWordLoop, if_pos hlen]
      rw [ih (bs.drop 8) hdropb, hchunk bs (by omega) hb]
      have htk : (bs.take 8).length = 8 := by
        simp only [List.length_take]
        omega
      have h1 : maskRef key pos bs = maskRef key pos (bs.take 8) ++ maskRef key pos (bs.drop 8) := by
        conv_lhs => rw [← List.take_append_drop 8 bs]
        rw [maskRef_append key (bs.take 8) (bs.drop 8) pos, htk]
        congr 1
        exact maskRef_congr_mod key (bs.drop 8) (pos + 8) pos (by omega)
      have hsnd : (pos + (bs.drop 8).length) &&& 3 = (pos + bs.length) &&& 3 := by
        rw [and3_eq_mod, and3_eq_mod, List.length_drop]
        omega
      rw [h1, hsnd]
    · simp only [maskWordLoop, if_neg hlen]
      rw [maskByteLoop_eq]

/-! ### truncWriter invariant -/

theorem truncOf_small (ins : List Nat) (h : ins.length ≤ 4) :
    truncOf ins = ⟨ins.length, ins ++ List.replicate (4 - ins.length) 0, []⟩ := by
  unfold truncOf
  have h0 : ins.length - 4 = 0 := by omega
  rw [h0, List.drop_zero, List.take_zero]
  simp only [TruncW.mk.injEq]
  refine ⟨by omega, ?_, trivial⟩
  rw [List.take_of_length_le h]

theorem truncOf_big (ins : List Nat) (h : 4 ≤ ins.length) :
    truncOf ins = ⟨4, ins.drop (ins.length - 4), ins.take (ins.length - 4)⟩ := by
  unfold truncOf
  simp only [TruncW.mk.injEq]
  refine ⟨by omega, ?_, trivial⟩
  have h1 : (ins.drop (ins.length - 4)).length = 4 := by
    rw [List.length_drop]
    omega
  rw [List.take_of_length_le (le_of_eq h1), show 4 - ins.length = 0 by omega]
  simp

theorem drop_take_drop (q : List Nat) (a s : Nat) (hs : s ≤ a) (ha : a ≤ q.length) :
    (q.take a).drop s ++ q.drop a = q.drop s := by
  conv_rhs => rw [← List.take_append_drop a q]
  rw [List.drop_append_eq_append_drop, List.length_take,
    show min a q.length = a by omega, show s - a = 0 by omega, List.drop_zero]

theorem take_take_add (q : List Nat) (a s : Nat) (hs : s ≤ a) :
    (q.take a).take s = q.take s := by
  rw [List.take_take, show min s a = s by omega]

theorem truncWrite_truncOf (ins q : List Nat) :
    truncWrite (truncOf ins) q = truncOf (ins ++ q) := by
  by_cases hL : ins.length < 4
  · by_cases hQ : q.length ≤ 4 - ins.length
    · -- B1: the incoming bytes fit in the buffer
      rw [truncOf_small ins (by omega), truncOf_small (ins ++ q) (by simp; omega)]
      simp only [truncWrite]
      have hk : (if ins.length < 4 then min (4 - ins.length) q.length else 0) = q.length := by
        rw [if_pos hL]
        omega
      rw [hk, List.drop_length, List.take_length]
      simp only [List.length_nil, if_true]
      simp only [TruncW.mk.injEq]
      refine ⟨by simp, ?_, trivial⟩
      rw [List.take_left, List.drop_append, List.drop_replicate, List.length_append,
        show 4 - ins.length - q.length = 4 - (ins.length + q.length) by omega]
    · -- B2: the buffer fills and bytes pass through
      rw [truncOf_small ins (by omega), truncOf_big (ins ++ q) (by simp; omega)]
      simp only [truncWrite]
      have hk : (if ins.length < 4 then min (4 - ins.length) q.length else 0) = 4 - ins.length := by
        rw [if_pos hL]
        omega
      rw [hk, List.take_left, show ins.length + (4 - ins.length) = 4 by omega]
      have hdrop4 : (ins ++ List.replicate (4 - ins.length) 0).drop 4 = [] := by
        rw [List.drop_eq_nil_of_le]
        simp only [List.length_append, List.length_replicate]
        omega
      rw [hdrop4, List.append_nil]
      have hcond : ¬ ((q.drop (4 - ins.length)).length = 0) := by
        rw [List.length_drop]
        omega
      rw [if_neg hcond]
      simp only [List.length_drop, List.length_append, TruncW.mk.injEq]
      by_cases hm : q.length - (4 - ins.length) ≤ 4
      · rw [show min (q.length - (4 - ins.length)) 4 = q.length - (4 - ins.length) by omega,
          Nat.sub_self, List.drop_zero, List.take_zero, List.append_nil]
        refine ⟨trivial, ?_, ?_⟩
        · rw [List.drop_append_eq_append_drop, List.drop_append_eq_append_drop,
            show q.length - (4 - ins.length) = ins.length + q.length - 4 by omega,
            List.append_assoc]
          congr 1
          exact drop_take_drop q (4 - ins.length) (ins.length + q.length - 4 - ins.length)
            (by omega) (by omega)
        · rw [List.nil_append, List.take_append_eq_append_take, List.take_append_eq_append_take,
            List.take_take,
            show q.length - (4 - ins.length) = ins.length + q.length - 4 by omega,
            show min (ins.length + q.length - 4 - ins.length) (4 - ins.length) =
              ins.length + q.length - 4 - ins.length by omega]
      · rw [show min (q.length - (4 - ins.length)) 4 = 4 by omega]
        have hP4 : (ins ++ List.take (4 - ins.length) q).length = 4 := by
          simp only [List.length_append, List.length_take]
          omega
        refine ⟨trivial, ?_, ?_⟩
        · rw [List.drop_eq_nil_of_le (le_of_eq hP4), List.nil_append, List.drop_drop,
            List.drop_append_eq_append_drop,
            List.drop_eq_nil_of_le (show ins.length ≤ ins.length + q.length - 4 by omega),
            List.nil_append,
            show 4 - ins.length + (q.length - (4 - ins.length) - 4) = q.length - 4 by omega,
            show ins.length + q.length - 4 - ins.length = q.length - 4 by omega]
        · rw [List.nil_append, List.take_of_length_le (le_of_eq hP4),
            List.take_append_eq_append_take,
            List.take_of_length_le (show ins.length ≤ ins.length + q.length - 4 by omega),
            List.append_assoc]
          congr 1
          rw [show ins.length + q.length - 4 - ins.length = q.length - 4 by omega]
          conv_rhs => rw [show q.length - 4 = (4 - ins.length) + (q.length - (4 - ins.length) - 4) by omega]
          rw [List.take_add]
  · -- A: buffer already full
    rw [truncOf_big ins (by omega)]
    simp only [truncWrite]
    rw [if_neg (show ¬ (4 : Nat) < 4 by omega), List.take_zero, Nat.add_zero]
    have hD4 : (ins.drop (ins.length - 4)).length = 4 := by
      rw [List.length_drop]
      omega
    rw [List.take_of_length_le (le_of_eq hD4), List.drop_eq_nil_of_le (le_of_eq hD4),
      List.append_nil, List.append_nil, List.drop_zero]
    by_cases hq : q.length = 0
    · rw [if_pos hq, List.eq_nil_of_length_eq_zero hq, List.append_nil,
        truncOf_big ins (by omega)]
    · rw [if_neg hq, truncOf_big (ins ++ q) (by simp; omega)]
      simp only [List.length_append, TruncW.mk.injEq]
      by_cases hm : q.length ≤ 4
      · rw [show min q.length 4 = q.length by omega, Nat.sub_self, List.drop_zero,
          List.take_zero, List.append_nil]
        refine ⟨trivial, ?_, ?_⟩
        · rw [List.drop_drop, List.drop_append_eq_append_drop,
            show ins.length + q.length - 4 - ins.length = 0 by omega, List.drop_zero,
            show ins.length - 4 + q.length = ins.length + q.length - 4 by omega]
        · rw [List.take_append_eq_append_take,
            show ins.length + q.length - 4 - ins.length = 0 by omega, List.take_zero,
            List.append_nil]
          conv_rhs => rw [show ins.length + q.length - 4 = (ins.length - 4) + q.length by omega]
          rw [List.take_add]
      · rw [show min q.length 4 = 4 by omega, List.drop_eq_nil_of_le (le_of_eq hD4),
          List.nil_append, List.take_of_length_le (le_of_eq hD4)]
        refine ⟨trivial, ?_, ?_⟩
        · rw [List.drop_append_eq_append_drop,
            List.drop_eq_nil_of_le (show ins.length ≤ ins.length + q.length - 4 by omega),
            List.nil_append,
            show ins.length + q.length - 4 - ins.length = q.length - 4 by omega]
        · rw [List.take_append_eq_append_take,
            List.take_of_length_le (show ins.length ≤ ins.length + q.length - 4 by omega),
            show ins.length + q.length - 4 - ins.length = q.length - 4 by omega]
          conv_rhs => rw [← List.take_append_drop (ins.length - 4) ins]

theorem truncInit_eq : truncInit = truncOf [] := rfl

theorem truncFoldl (chunks : List (List Nat)) : ∀ ins : List Nat,
    List.foldl truncWrite (truncOf ins) chunks = truncOf (ins ++ chunks.flatten) := by
  induction chunks with
  | nil => intro ins; simp [List.foldl]
  | cons c chunks ih =>
    intro ins
    simp only [List.foldl, List.flatten]
    rw [truncWrite_truncOf, ih (ins ++ c), List.append_assoc]

/-! ### Round trip of the modelled flate streams -/

theorem flateCompressF_nil (fm : Nat) : flateCompressF fm [] = [] := by
  cases fm <;> rfl

theorem inflate_encF : ∀ n fm fuel (m : List Nat), m.length ≤ n → m.length ≤ fm →
    m.length + 2 ≤ fuel →
    inflateF fuel (flateCompressF fm m ++ flateReadTail) = some m := by
  intro n
  induction n with
  | zero =>
    intro fm fuel m hn hfm hfuel
    have hm : m = [] := List.eq_nil_of_length_eq_zero (by omega)
    subst hm
    obtain ⟨f1, rfl⟩ : ∃ f1, fuel = f1 + 2 := ⟨fuel - 2, by omega⟩
    rw [flateCompressF_nil, List.nil_append]
    rfl
  | succ n ih =>
    intro fm fuel m hn hfm hfuel
    rcases m with _ | ⟨b, m⟩
    · obtain ⟨f1, rfl⟩ : ∃ f1, fuel = f1 + 2 := ⟨fuel - 2, by omega⟩
      rw [flateCompressF_nil, List.nil_append]
      rfl
    · simp only [List.length_cons] at hn hfm hfuel
      obtain ⟨fm1, rfl⟩ : ∃ f, fm = f + 1 := ⟨fm - 1, by omega⟩
      obtain ⟨fuel1, rfl⟩ : ∃ f, fuel = f + 1 := ⟨fuel - 1, by omega⟩
      show inflateF (fuel1 + 1)
        ((2 :: min (b :: m).length 255 :: ((b :: m).take 255 ++ flateCompressF fm1 ((b :: m).drop 255))) ++
          flateReadTail) = _
      rw [show (2 :: min (b :: m).length 255 :: ((b :: m).take 255 ++ flateCompressF fm1 ((b :: m).drop 255))) ++
          flateReadTail = 2 :: min (b :: m).length 255 :: ((b :: m).take 255 ++
            (flateCompressF fm1 ((b :: m).drop 255) ++ flateReadTail)) by simp]
      show (if ((b :: m).take 255 ++ (flateCompressF fm1 ((b :: m).drop 255) ++ flateReadTail)).length <
          min (b :: m).length 255 then none
        else
          match inflateF fuel1 (((b :: m).take 255 ++
              (flateCompressF fm1 ((b :: m).drop 255) ++ flateReadTail)).drop (min (b :: m).length 255)) with
          | none => none
          | some d => some (((b :: m).take 255 ++
              (flateCompressF fm1 ((b :: m).drop 255) ++ flateReadTail)).take (min (b :: m).length 255) ++ d)) =
        some (b :: m)
      have htklen : ((b :: m).take 255).length = min (b :: m).length 255 := by
        rw [List.length_take]
        omega
      have hnotlt : ¬ (((b :: m).take 255 ++ (flateCompressF fm1 ((b :: m).drop 255) ++ flateReadTail)).length <
          min (b :: m).length 255) := by
        rw [List.length_append, htklen]
        omega
      rw [if_neg hnotlt, List.take_left' htklen, List.drop_left' htklen]
      have hrec : inflateF fuel1 (flateCompressF fm1 ((b :: m).drop 255) ++ flateReadTail) =
          some ((b :: m).drop 255) := by
        apply ih fm1 fuel1 ((b :: m).drop 255) <;>
          simp only [List.length_drop, List.length_cons] <;> omega
      rw [hrec]
      show some ((b :: m).take 255 ++ (b :: m).drop 255) = some (b :: m)
      rw [List.take_append_drop]

theorem flateCompressF_length : ∀ n fm (m : List Nat), m.length ≤ n → m.length ≤ fm →
    m.length ≤ (flateCompressF fm m).length := by
  intro n
  induction n with
  | zero =>
    intro fm m hn _
    have hm : m = [] := List.eq_nil_of_length_eq_zero (by omega)
    subst hm
    simp
  | succ n ih =>
    intro fm m hn hfm
    rcases m with _ | ⟨b, m⟩
    · simp
    · simp only [List.length_cons] at hn hfm
      obtain ⟨fm1, rfl⟩ : ∃ f, fm = f + 1 := ⟨fm - 1, by omega⟩
      show (b :: m).length ≤ (2 :: min (b :: m).length 255 ::
        ((b :: m).take 255 ++ flateCompressF fm1 ((b :: m).drop 255))).length
      have hrec := ih fm1 ((b :: m).drop 255)
        (by simp only [List.length_drop, List.length_cons]; omega)
        (by simp only [List.length_drop, List.length_cons]; omega)
      simp only [List.length_cons, List.length_append, List.length_take,
        List.length_drop] at hrec ⊢
      omega

theorem inflate_enc (level : Int) (m : List Nat) :
    inflate (flateCompress level m ++ flateReadTail) = some m := by
  unfold inflate flateCompress
  apply inflate_encF m.length m.length _ m (le_refl _) (le_refl _)
  have hlen := flateCompressF_length m.length m.length m (le_refl _) (le_refl _)
  have htail : flateReadTail.length = 9 := rfl
  simp only [List.length_append]
  omega

theorem upgradeTail_validation (u : Upgrader) (r : Req)
    (responseHeader : Option Header) (h : HijackCtx) :
    ((upgradeTail u r responseHeader h).err ≠ none →
      (upgradeTail u r responseHeader h).conn = none) ∧
    (∀ e : UpgErr, (upgradeTail u r responseHeader h).err = some e →
      e ≠ UpgErr.writeFailed → (upgradeTail u r responseHeader h).netWritten = []) := by
  show (fun o : UpgOut => (o.err ≠ none → o.conn = none) ∧
      (∀ e : UpgErr, o.err = some e → e ≠ UpgErr.writeFailed → o.netWritten = []))
    (upgradeTail u r responseHeader h)
  delta upgradeTail
  dsimp only
  repeat' split
  all_goals first
    | exact ⟨fun _ => rfl, fun e he _ => rfl⟩
    | exact ⟨fun hc => absurd rfl hc, fun e he _ => by cases he⟩
    | exact ⟨fun _ => rfl, fun e he hne => absurd (Option.some.inj he).symm hne⟩

theorem skipSpace_eq_dropWhile : ∀ s : GoStr, skipSpace s = s.dropWhile isSpaceChar := by
  intro s
  induction s with
  | nil => rfl
  | cons c rest ih =>
    show (if isSpaceChar c then skipSpace rest else c :: rest) = _
    rw [List.dropWhile_cons]
    cases h : isSpaceChar c
    · simp [h]
    · simp [h, ih]

theorem dropWhile_all (p : Char → Bool) : ∀ a b : GoStr, (∀ c ∈ a, p c = true) →
    (a ++ b).dropWhile p = b.dropWhile p := by
  intro a
  induction a with
  | nil => intro b _; rfl
  | cons c r ih =>
    intro b h
    rw [List.cons_append, List.dropWhile_cons, h c (List.mem_cons_self c r), if_pos rfl,
      ih b (fun x hx => h x (List.mem_cons_of_mem c hx))]

theorem dropWhile_none (p : Char → Bool) : ∀ a : GoStr, (∀ c ∈ a, p c = false) →
    a.dropWhile p = a := by
  intro a h
  cases a with
  | nil => rfl
  | cons c r =>
    rw [List.dropWhile_cons, h c (List.mem_cons_self c r)]
    simp

theorem trimWS_embed (ws t ws2 : GoStr) (hws : ∀ c ∈ ws, isSpaceChar c = true)
    (hws2 : ∀ c ∈ ws2, isSpaceChar c = true) (ht : ∀ c ∈ t, isSpaceChar c = false)
    (htne : t ≠ []) : trimWS (ws ++ t ++ ws2) = t := by
  unfold trimWS
  have h1 : (ws ++ t ++ ws2).dropWhile isSpaceChar = t ++ ws2 := by
    rw [List.append_assoc, dropWhile_all _ _ _ hws]
    rcases t with _ | ⟨c, r⟩
    · exact absurd rfl htne
    · rw [List.cons_append, List.dropWhile_cons, ht c (List.mem_cons_self c r)]
      simp
  rw [h1, List.reverse_append,
    dropWhile_all _ _ _ (fun c hc => hws2 c (List.mem_reverse.mp hc)),
    dropWhile_none _ _ (fun c hc => ht c (List.mem_reverse.mp hc)),
    List.reverse_reverse]

theorem splitComma_nocomma : ∀ a : GoStr, (∀ c ∈ a, c ≠ ',') → splitComma a = [a] := by
  intro a
  induction a with
  | nil => intro _; rfl
  | cons c r ih =>
    intro h
    have hc : ¬ (c = ',') := h c (List.mem_cons_self c r)
    simp only [splitComma, if_neg hc, ih (fun x hx => h x (List.mem_cons_of_mem c hx))]

theorem splitComma_append (a b : GoStr) (h : ∀ c ∈ a, c ≠ ',') :
    splitComma (a ++ ',' :: b) = a :: splitComma b := by
  induction a with
  | nil => simp [splitComma]
  | cons c r ih =>
    have hc : ¬ (c = ',') := h c (List.mem_cons_self c r)
    simp only [List.cons_append, splitComma, if_neg hc, List.append_eq,
      ih (fun x hx => h x (List.mem_cons_of_mem c hx))]

theorem space_ne_comma : ∀ c : Char, isSpaceChar c = true → c ≠ ',' := by
  intro c h hc
  subst hc
  exact absurd h (by decide)

theorem token_not_space : ∀ c : Char, isTokenOctet c = true → isSpaceChar c = false := by
  intro c h
  cases hs : isSpaceChar c
  · rfl
  · exfalso
    have : c = ' ' ∨ c = '\t' ∨ c = '\r' ∨ c = '\n' := by
      simpa [isSpaceChar] using hs
    rcases this with rfl | rfl | rfl | rfl <;> exact absurd h (by decide)

theorem token_ne_comma : ∀ c : Char, isTokenOctet c = true → c ≠ ',' := by
  intro c h hc
  subst hc
  exact absurd h (by decide)

theorem tokenScanF_tokensOf (value : GoStr) : ∀ fuel s ts, tokensOfF fuel s = some ts →
    tokenScanF value fuel s = ts.any (fun t => equalASCIIFold t value) := by
  intro fuel
  induction fuel with
  | zero => intro s ts h; cases h
  | succ fuel ih =>
    intro s ts h
    simp only [tokensOfF] at h
    simp only [tokenScanF]
    by_cases hT : ((nextToken (skipSpace s)).1).isEmpty
    · rw [if_pos hT] at h
      cases h
    · rw [if_neg hT] at h
      rw [if_neg hT]
      by_cases hE : (skipSpace ((nextToken (skipSpace s)).2)).isEmpty
      · rw [if_pos hE] at h
        have hE' : skipSpace ((nextToken (skipSpace s)).2) = [] := by
          simpa using hE
        obtain rfl : [(nextToken (skipSpace s)).1] = ts := Option.some.inj h
        rw [hE']
        cases hf : equalASCIIFold (nextToken (skipSpace s)).1 value <;> simp [hf]
      · rw [if_neg hE] at h
        by_cases hC : (skipSpace ((nextToken (skipSpace s)).2)).head? = some ','
        · rw [if_pos hC] at h
          obtain ⟨ts', hts', rfl⟩ := Option.map_eq_some'.mp h
          have hE' : ¬ (skipSpace ((nextToken (skipSpace s)).2)) = [] := by
            intro hnil
            rw [hnil] at hE
            exact hE rfl
          rw [if_neg (fun hand => hand.2 hC)]
          cases hf : equalASCIIFold (nextToken (skipSpace s)).1 value
          · rw [if_neg hE]
            rw [ih _ _ hts']
            simp [hf]
          · simp [hf]
        · rw [if_neg hC] at h
          cases h

theorem takeWhile_append_dropWhile' (p : Char → Bool) : ∀ l : GoStr,
    l.takeWhile p ++ l.dropWhile p = l := by
  intro l
  induction l with
  | nil => rfl
  | cons c r ih =>
    rw [List.takeWhile_cons, List.dropWhile_cons]
    cases h : p c
    · simp
    · simp [ih]

theorem tokensOf_splitComma : ∀ fuel s ts, tokensOfF fuel s = some ts →
    (splitComma s).map trimWS = ts := by
  intro fuel
  induction fuel with
  | zero => intro s ts h; cases h
  | succ fuel ih =>
    intro s ts h
    simp only [tokensOfF, nextToken] at h
    have hdecS : List.takeWhile isSpaceChar s ++ skipSpace s = s := by
      rw [skipSpace_eq_dropWhile, takeWhile_append_dropWhile']
    have hdec2 : (skipSpace s).dropWhile isTokenOctet =
        ((skipSpace s).dropWhile isTokenOctet).takeWhile isSpaceChar ++
          skipSpace ((skipSpace s).dropWhile isTokenOctet) := by
      rw [skipSpace_eq_dropWhile ((skipSpace s).dropWhile isTokenOctet)]
      exact (takeWhile_append_dropWhile' isSpaceChar _).symm
    have hdec1 : skipSpace s = (skipSpace s).takeWhile isTokenOctet ++
        (((skipSpace s).dropWhile isTokenOctet).takeWhile isSpaceChar ++
          skipSpace ((skipSpace s).dropWhile isTokenOctet)) := by
      conv_lhs => rw [← takeWhile_append_dropWhile' isTokenOctet (skipSpace s)]
      conv_lhs => rw [hdec2]
    have hsdec : s = s.takeWhile isSpaceChar ++ ((skipSpace s).takeWhile isTokenOctet ++
        (((skipSpace s).dropWhile isTokenOctet).takeWhile isSpaceChar ++
          skipSpace ((skipSpace s).dropWhile isTokenOctet))) := by
      conv_lhs => rw [← hdecS]
      conv_lhs => rw [hdec1]
    have hne_comma : ∀ c : Char, (c ∈ s.takeWhile isSpaceChar ∨
        c ∈ (skipSpace s).takeWhile isTokenOctet ∨
        c ∈ ((skipSpace s).dropWhile isTokenOctet).takeWhile isSpaceChar) → c ≠ ',' := by
      intro c hc
      rcases hc with hc | hc | hc
      · exact space_ne_comma c (List.mem_takeWhile_imp hc)
      · exact token_ne_comma c (List.mem_takeWhile_imp hc)
      · exact space_ne_comma c (List.mem_takeWhile_imp hc)
    by_cases hT : ((skipSpace s).takeWhile isTokenOctet).isEmpty
    · rw [if_pos hT] at h
      cases h
    · rw [if_neg hT] at h
      have htne : (skipSpace s).takeWhile isTokenOctet ≠ [] := by
        intro hnil
        rw [hnil] at hT
        exact hT rfl
      have htsp : ∀ c ∈ (skipSpace s).takeWhile isTokenOctet, isSpaceChar c = false :=
        fun c hc => token_not_space c (List.mem_takeWhile_imp hc)
      have hwsS : ∀ c ∈ s.takeWhile isSpaceChar, isSpaceChar c = true :=
        fun c hc => List.mem_takeWhile_imp hc
      have hws2 : ∀ c ∈ ((skipSpace s).dropWhile isTokenOctet).takeWhile isSpaceChar,
          isSpaceChar c = true :=
        fun c hc => List.mem_takeWhile_imp hc
      by_cases hE : (skipSpace ((skipSpace s).dropWhile isTokenOctet)).isEmpty
      · rw [if_pos hE] at h
        obtain rfl : [(skipSpace s).takeWhile isTokenOctet] = ts := Option.some.inj h
        have hs2nil : skipSpace ((skipSpace s).dropWhile isTokenOctet) = [] := by
          simpa using hE
        have hnc : ∀ c ∈ s, c ≠ ',' := by
          intro c hc
          rw [hsdec, hs2nil, List.append_nil] at hc
          simp only [List.mem_append] at hc
          exact hne_comma c hc
        rw [splitComma_nocomma s hnc, List.map_cons, List.map_nil]
        have h2 : trimWS s = (skipSpace s).takeWhile isTokenOctet := by
          conv_lhs => rw [hsdec, hs2nil]
          rw [List.append_nil, ← List.append_assoc]
          exact trimWS_embed _ _ _ hwsS hws2 htsp htne
        rw [h2]
      · rw [if_neg hE] at h
        by_cases hC : (skipSpace ((skipSpace s).dropWhile isTokenOctet)).head? = some ','
        · rw [if_pos hC] at h
          obtain ⟨rest, hrest⟩ : ∃ r,
              skipSpace ((skipSpace s).dropWhile isTokenOctet) = ',' :: r := by
            cases hq : skipSpace ((skipSpace s).dropWhile isTokenOctet) with
            | nil =>
              rw [hq] at hE
              exact absurd rfl hE
            | cons a r =>
              rw [hq] at hC
              have ha : a = ',' := by simpa using hC
              exact ⟨r, by rw [ha]⟩
          rw [hrest] at h
          simp only [List.tail_cons] at h
          obtain ⟨ts', hts', rfl⟩ := Option.map_eq_some'.mp h
          have hseq : s = (s.takeWhile isSpaceChar ++ ((skipSpace s).takeWhile isTokenOctet ++
              ((skipSpace s).dropWhile isTokenOctet).takeWhile isSpaceChar)) ++ ',' :: rest := by
            conv_lhs => rw [hsdec, hrest]
            simp [List.append_assoc]
          have hnc2 : ∀ c ∈ s.takeWhile isSpaceChar ++ ((skipSpace s).takeWhile isTokenOctet ++
              ((skipSpace s).dropWhile isTokenOctet).takeWhile isSpaceChar), c ≠ ',' := by
            intro c hc
            simp only [List.mem_append] at hc
            exact hne_comma c hc
          have h1 : splitComma s = (s.takeWhile isSpaceChar ++
              ((skipSpace s).takeWhile isTokenOctet ++
                ((skipSpace s).dropWhile isTokenOctet).takeWhile isSpaceChar)) ::
              splitComma rest := by
            conv_lhs => rw [hseq]
            exact splitComma_append _ rest hnc2
          rw [h1, List.map_cons, ih rest ts' hts']
          congr 1
          rw [← List.append_assoc]
          exact trimWS_embed _ _ _ hwsS hws2 htsp htne
        · rw [if_neg hC] at h
          cases h

theorem tokenScan_entry_spec (value e : GoStr) (h : (tokensOf e).isSome = true) :
    tokenScanF value (e.length + 1) e =
      (splitComma e).any (fun piece => equalASCIIFold (trimWS piece) value) := by
  obtain ⟨ts, hts⟩ := Option.isSome_iff_exists.mp h
  have hts' : tokensOfF (e.length + 1) e = some ts := hts
  rw [tokenScanF_tokensOf value _ _ _ hts', ← tokensOf_splitComma _ _ _ hts', List.any_map]
  rfl

end WS

/-- C1: for every challenge key `k`, `computeAcceptKey k` is the standard
Base64 encoding of the SHA-1 digest of `k` followed by the GUID
"258EAFA5-E914-47DA-95CA-C5AB0DC85B11", and on the RFC 6455 sample nonce
"dGhlIHNhbXBsZSBub25jZQ==" it yields "s3pPLMBiTxaQ9kYGzzhZRbK+xOo=". -/
theorem WS.computeAcceptKey_spec :
    (∀ k : List Nat, WS.computeAcceptKey k = WS.base64Encode (WS.sha1 (k ++ WS.keyGUID))) ∧
    WS.computeAcceptKey (WS.goBytes ("dGhlIHNhbXBsZSBub25jZQ==")) =
      WS.goStr ("s3pPLMBiTxaQ9kYGzzhZRbK+xOo=") :=
  ⟨fun _ => rfl, by set_option maxRecDepth 100000 in decide⟩

/-- C2: for every 4-byte key, every starting position pos in [0,4) and every
byte slice, maskBytes XORs byte i with key[(pos+i) mod 4] — the
word-at-a-time path with the rotated little-endian 64-bit key agrees with
the byte-at-a-time reference — and returns (pos + len) mod 4. -/
theorem WS.maskBytes_spec (key : List Nat) (pos : Nat) (bs : List Nat)
    (hklen : key.length = 4) (hk : ∀ k ∈ key, k < 256)
    (hb : ∀ b ∈ bs, b < 256) (hpos : pos < 4) :
    WS.maskBytes key pos bs = (WS.maskRef key pos bs, (pos + bs.length) % 4) := by
  rcases key with _ | ⟨k0, key⟩; · simp at hklen
  rcases key with _ | ⟨k1, key⟩; · simp at hklen
  rcases key with _ | ⟨k2, key⟩; · simp at hklen
  rcases key with _ | ⟨k3, key⟩; · simp at hklen
  rcases key with _ | ⟨k4, key⟩
  swap
  · simp at hklen
  have h0 : k0 < 256 := hk _ (by simp)
  have h1 : k1 < 256 := hk _ (by simp)
  have h2 : k2 < 256 := hk _ (by simp)
  have h3 : k3 < 256 := hk _ (by simp)
  by_cases hlen : bs.length < 8
  · show (if bs.length < 8 then _ else _) = _
    rw [if_pos hlen, WS.maskByteLoop_eq, WS.and3_eq_mod]
  · have hstep : WS.maskBytes [k0, k1, k2, k3] pos bs =
        WS.maskWordLoop [k0, k1, k2, k3]
          (WS.rotateLeft64 (WS.leUint32 k0 k1 k2 k3 ||| (WS.leUint32 k0 k1 k2 k3 <<< 32))
            (-(pos : Int) * 8)) pos bs.length bs := by
      show (if bs.length < 8 then _ else _) = _
      rw [if_neg hlen]
      rfl
    rw [hstep,
      WS.maskWordLoop_spec [k0, k1, k2, k3] _ pos
        (WS.mask_chunk k0 k1 k2 k3 h0 h1 h2 h3 pos hpos) bs.length bs hb,
      WS.and3_eq_mod]

/-- Witness for C2 at a concrete key, position and 9-byte payload
(exercising the word-at-a-time path). -/
theorem WS.maskBytes_spec_witness :
    WS.maskBytes [17, 250, 3, 128] 1 [1, 2, 3, 4, 5, 6, 7, 8, 9] =
      (WS.maskRef [17, 250, 3, 128] 1 [1, 2, 3, 4, 5, 6, 7, 8, 9],
        (1 + ([1, 2, 3, 4, 5, 6, 7, 8, 9] : List Nat).length) % 4) :=
  WS.maskBytes_spec [17, 250, 3, 128] 1 [1, 2, 3, 4, 5, 6, 7, 8, 9]
    (by decide) (by decide) (by decide) (by decide)

/-- C4 counterexample: the claim, as stated, fails on compression.go's
FlateAdaptor.Write (one of its cited sources): after a single Write whose
concatenated input is the 5 bytes [1,2,3,4,5], the claim says the
underlying writer has received the first max(5-4,0) = 1 byte, but
FlateAdaptor retains five bytes and has forwarded nothing. -/
theorem WS.flateAdaptor_write_cex :
    (WS.flateAdaptorWrite ⟨[], []⟩ [1, 2, 3, 4, 5]).out ≠ [1, 2, 3, 4, 5].take (5 - 4) := by
  decide

/-- C4 (amended to the truncWriter/flateWriteWrapper adapter of
compress.go): after any sequence of Write calls with concatenated input
`ins`, the underlying writer has received exactly the first
max(n-4, 0) bytes, the adapter retains the most recent min(n, 4) bytes,
and this is an invariant of every Write; flateWriteWrapper.Close forwards
nothing further (the returned state is unchanged) and errors exactly when
the four retained bytes are not 0x00 0x00 0xff 0xff. -/
theorem WS.truncWriter_invariant :
    (∀ chunks : List (List Nat),
      List.foldl WS.truncWrite WS.truncInit chunks = WS.truncOf chunks.flatten) ∧
    (∀ ins : List Nat, (WS.truncOf ins).out = ins.take (ins.length - 4) ∧
      (WS.truncOf ins).n = min ins.length 4 ∧
      (WS.truncOf ins).p.take (min ins.length 4) = ins.drop (ins.length - 4)) ∧
    (∀ tw : WS.TruncW, tw.p = [0, 0, 0xff, 0xff] → WS.flateWrapperClose tw = Except.ok tw) ∧
    (∀ tw : WS.TruncW, tw.p ≠ [0, 0, 0xff, 0xff] →
      WS.flateWrapperClose tw = Except.error WS.flateTailErr) := by
  refine ⟨?_, ?_, ?_, ?_⟩
  · intro chunks
    rw [WS.truncInit_eq, WS.truncFoldl chunks [], List.nil_append]
  · intro ins
    refine ⟨rfl, rfl, ?_⟩
    show (WS.truncOf ins).p.take (min ins.length 4) = ins.drop (ins.length - 4)
    unfold WS.truncOf
    by_cases h : 4 ≤ ins.length
    · have hlen : (ins.drop (ins.length - 4)).length = 4 := by
        rw [List.length_drop]
        omega
      rw [show min ins.length 4 = 4 by omega, List.take_of_length_le (le_of_eq hlen)]
      exact List.take_left' hlen
    · rw [show min ins.length 4 = ins.length by omega, show ins.length - 4 = 0 by omega,
        List.drop_zero, List.take_of_length_le (show ins.length ≤ 4 by omega)]
      exact List.take_left ins _
  · intro tw h
    simp [WS.flateWrapperClose, h]
  · intro tw h
    simp [WS.flateWrapperClose, h]

/-- Witness for C4 at a concrete write sequence and a concrete Close. -/
theorem WS.truncWriter_invariant_witness :
    List.foldl WS.truncWrite WS.truncInit [[1, 2], [3, 4, 5, 6, 7]] =
      WS.truncOf [1, 2, 3, 4, 5, 6, 7] ∧
    WS.flateWrapperClose ⟨4, [0, 0, 0xff, 0xff], [9]⟩ =
      Except.ok ⟨4, [0, 0, 0xff, 0xff], [9]⟩ :=
  ⟨WS.truncWriter_invariant.1 [[1, 2], [3, 4, 5, 6, 7]],
   WS.truncWriter_invariant.2.2.1 ⟨4, [0, 0, 0xff, 0xff], [9]⟩ rfl⟩

/-- C3: for every byte sequence m and compression level in {-2, 0, 1, 9},
writing m through the compressNoContextTakeover pipeline and closing it
yields a frame (the flate output with its trailing 0x00 0x00 0xff 0xff
stripped), and reading that frame back through the
decompressNoContextTakeover pipeline — which appends 0x00 0x00 0xff 0xff
followed by 0x01 0x00 0x00 0xff 0xff — to end-of-stream yields exactly m.
The flate encoder/decoder themselves are modelled from the spec. -/
theorem WS.compress_roundtrip (level : Int) (m : List Nat)
    (hlevel : level = -2 ∨ level = 0 ∨ level = 1 ∨ level = 9) :
    WS.compressMessage level m = Except.ok (WS.flateCompress level m) ∧
    WS.decompressMessage (WS.flateCompress level m) = some m := by
  constructor
  · unfold WS.compressMessage
    rw [if_neg (by rcases hlevel with h | h | h | h <;> subst h <;> decide)]
    have h1 : WS.truncWrite WS.truncInit (WS.flateCompress level m ++ [0x00, 0x00, 0xff, 0xff]) =
        WS.truncOf (WS.flateCompress level m ++ [0x00, 0x00, 0xff, 0xff]) := by
      rw [WS.truncInit_eq, WS.truncWrite_truncOf, List.nil_append]
    rw [h1, WS.truncOf_big _ (by simp only [List.length_append, List.length_cons, List.length_nil]; omega)]
    have hlen4 : (WS.flateCompress level m ++ [0x00, 0x00, 0xff, 0xff] : List Nat).length - 4 =
        (WS.flateCompress level m).length := by
      simp only [List.length_append, List.length_cons, List.length_nil]
      omega
    rw [hlen4, List.drop_left, List.take_left]
    rfl
  · exact WS.inflate_enc level m

/-- Witness for C3 at level 1 and the message [104, 105]. -/
theorem WS.compress_roundtrip_witness :
    WS.compressMessage 1 [104, 105] = Except.ok (WS.flateCompress 1 [104, 105]) ∧
    WS.decompressMessage (WS.flateCompress 1 [104, 105]) = some [104, 105] :=
  WS.compress_roundtrip 1 [104, 105] (Or.inr (Or.inr (Or.inl rfl)))

/-- C5 counterexample: with server subprotocols ["foo","bar","baz"], no
subprotocol in the response header, and the client offering "bar, foo",
the negotiated subprotocol is "foo" — the first entry of the SERVER list
matching the client set — not "bar" as the claim states. -/
theorem WS.selectSubprotocol_cex :
    WS.selectSubprotocol (some [WS.goStr ("foo"), WS.goStr ("bar"), WS.goStr ("baz")])
      ⟨WS.goStr ("GET"), [], [(WS.goStr ("Sec-Websocket-Protocol"), [WS.goStr ("bar, foo")])]⟩
      [] = (WS.goStr ("foo"), true) ∧
    WS.goStr ("foo") ≠ WS.goStr ("bar") := by
  constructor
  · decide
  · decide

/-- C5 (amended): when Upgrader.Subprotocols is set and the application
response names no subprotocol, the negotiated subprotocol is the first
entry of the server's Subprotocols list that occurs among the client's
offered tokens (server preference); on the concrete input of the claim the
result is "foo". -/
theorem WS.selectSubprotocol_spec :
    (∀ as bs : List WS.GoStr, WS.firstMatching as bs =
      (((as.filter (fun a => bs.contains a)).headD []),
        !(as.filter (fun a => bs.contains a)).isEmpty)) ∧
    WS.selectSubprotocol (some [WS.goStr ("foo"), WS.goStr ("bar"), WS.goStr ("baz")])
      ⟨WS.goStr ("GET"), [], [(WS.goStr ("Sec-Websocket-Protocol"), [WS.goStr ("bar, foo")])]⟩
      [] = (WS.goStr ("foo"), true) := by
  constructor
  · intro as bs
    induction as with
    | nil => rfl
    | cons a rest ih =>
      show (if bs.contains a then (a, true) else WS.firstMatching rest bs) = _
      simp only [List.filter_cons]
      by_cases h : bs.contains a = true
      · rw [if_pos h, if_pos h]
        rfl
      · rw [if_neg h, if_neg h, ih]
  · decide

/-- Witness for C5: the firstMatching characterisation evaluated on the
concrete lists ["foo","bar"] against ["bar"]. -/
theorem WS.selectSubprotocol_spec_witness :
    WS.firstMatching [WS.goStr ("foo"), WS.goStr ("bar")] [WS.goStr ("bar")] =
      ((([WS.goStr ("foo"), WS.goStr ("bar")].filter
          (fun a => [WS.goStr ("bar")].contains a)).headD []),
        !([WS.goStr ("foo"), WS.goStr ("bar")].filter
          (fun a => [WS.goStr ("bar")].contains a)).isEmpty) :=
  WS.selectSubprotocol_spec.1 [WS.goStr ("foo"), WS.goStr ("bar")] [WS.goStr ("bar")]

/-- C6 counterexample: the claim, as stated, fails on server.go's default
origin check (one of its cited sources): for a request with Host
"example.org" and NO Origin header the claim says the request is
accepted, but Upgrader.checkSameOrigin returns false when the Origin
header is absent (and it compares hosts by exact equality, not ASCII
case-fold). -/
theorem WS.checkSameOriginOld_cex :
    WS.headerLookup (WS.Req.mk (WS.goStr ("GET")) (WS.goStr ("example.org")) []).headers
      (WS.goStr ("Origin")) = none ∧
    WS.checkSameOriginOld ⟨WS.goStr ("GET"), WS.goStr ("example.org"), []⟩ = false := by
  constructor
  · rfl
  · decide

/-- C6 (amended to the newer checkSameOrigin, the default of the newer
Upgrader): the default origin check accepts iff the Origin header is
absent (or empty) or the host of the parsed Origin URL equals the request
Host under ASCII case folding, an unparseable origin being rejected; in
particular Host "example.org" with Origin "https://other.org" is rejected
and Upgrade fails with HTTP status 403 and no connection. The older
server.go variant instead rejects an absent Origin and compares hosts
exactly. -/
theorem WS.checkSameOrigin_spec :
    (∀ r : WS.Req, WS.headerLookup r.headers (WS.goStr ("Origin")) = none →
      WS.checkSameOrigin r = true) ∧
    (∀ r : WS.Req, ∀ o rest hst, WS.headerLookup r.headers (WS.goStr ("Origin")) = some (o :: rest) →
      WS.urlHost o = some hst →
      (WS.checkSameOrigin r = true ↔ WS.equalASCIIFold hst r.host = true)) ∧
    (∀ r : WS.Req, ∀ o rest, WS.headerLookup r.headers (WS.goStr ("Origin")) = some (o :: rest) →
      WS.urlHost o = none → WS.checkSameOrigin r = false) ∧
    WS.Upgrade ⟨none, none, false⟩
      ⟨WS.goStr ("GET"), WS.goStr ("example.org"),
        [(WS.goStr ("Connection"), [WS.goStr ("upgrade")]),
         (WS.goStr ("Upgrade"), [WS.goStr ("websocket")]),
         (WS.goStr ("Sec-Websocket-Version"), [WS.goStr ("13")]),
         (WS.goStr ("Sec-Websocket-Key"), [WS.goStr ("dGhlIHNhbXBsZSBub25jZQ==")]),
         (WS.goStr ("Origin"), [WS.goStr ("https://other.org")])]⟩
      none ⟨true, false, 0, true⟩ =
      ⟨none, some WS.UpgErr.originFail, some 403, []⟩ := by
  refine ⟨?_, ?_, ?_, by decide⟩
  · intro r h
    simp only [WS.checkSameOrigin, h]
  · intro r o rest hst h1 h2
    simp only [WS.checkSameOrigin, h1, h2]
  · intro r o rest h1 h2
    simp only [WS.checkSameOrigin, h1, h2]

/-- Witness for C6 at concrete requests: absent Origin is accepted by the
newer default, and a same-host Origin with different letter case is
accepted via the case-folded comparison. -/
theorem WS.checkSameOrigin_spec_witness :
    WS.checkSameOrigin ⟨WS.goStr ("GET"), WS.goStr ("example.org"), []⟩ = true ∧
    (WS.checkSameOrigin ⟨WS.goStr ("GET"), WS.goStr ("Example.org"),
        [(WS.goStr ("Origin"), [WS.goStr ("https://example.org")])]⟩ = true ↔
      WS.equalASCIIFold (WS.goStr ("example.org")) (WS.goStr ("Example.org")) = true) :=
  ⟨WS.checkSameOrigin_spec.1 ⟨WS.goStr ("GET"), WS.goStr ("example.org"), []⟩ rfl,
   WS.checkSameOrigin_spec.2.1 ⟨WS.goStr ("GET"), WS.goStr ("Example.org"),
       [(WS.goStr ("Origin"), [WS.goStr ("https://example.org")])]⟩
     (WS.goStr ("https://example.org")) [] (WS.goStr ("example.org")) rfl rfl⟩

/-- C9: whenever Upgrade returns an error the returned connection is nil,
and every validation failure (Connection/Upgrade token checks, method,
Sec-WebSocket-Version, application Sec-WebSocket-Extensions header, origin
check, missing Sec-WebSocket-Key, subprotocol mismatch, hijack problems
and pre-handshake buffered data) is returned before any byte of the 101
response is written to the network connection; only the final network
write itself can fail after bytes have been sent. -/
theorem WS.upgrade_validation (u : WS.Upgrader) (r : WS.Req)
    (responseHeader : Option WS.Header) (h : WS.HijackCtx) :
    ((WS.Upgrade u r responseHeader h).err ≠ none →
      (WS.Upgrade u r responseHeader h).conn = none) ∧
    (∀ e : WS.UpgErr, (WS.Upgrade u r responseHeader h).err = some e →
      e ≠ WS.UpgErr.writeFailed → (WS.Upgrade u r responseHeader h).netWritten = []) := by
  show (fun o : WS.UpgOut => (o.err ≠ none → o.conn = none) ∧
      (∀ e : WS.UpgErr, o.err = some e → e ≠ WS.UpgErr.writeFailed → o.netWritten = []))
    (WS.Upgrade u r responseHeader h)
  delta WS.Upgrade
  split
  · exact ⟨fun _ => rfl, fun e he _ => rfl⟩
  · split
    · exact ⟨fun _ => rfl, fun e he _ => rfl⟩
    · split
      · exact ⟨fun _ => rfl, fun e he _ => rfl⟩
      · split
        · exact ⟨fun _ => rfl, fun e he _ => rfl⟩
        · split
          · exact ⟨fun _ => rfl, fun e he _ => rfl⟩
          · split
            · exact ⟨fun _ => rfl, fun e he _ => rfl⟩
            · exact WS.upgradeTail_validation u r responseHeader h

/-- Witness for C9: a request whose Connection header is missing fails
validation with no connection and nothing written to the network. -/
theorem WS.upgrade_validation_witness :
    (WS.Upgrade ⟨none, none, false⟩ ⟨WS.goStr ("GET"), WS.goStr ("example.org"), []⟩
      none ⟨true, false, 0, true⟩).conn = none ∧
    (WS.Upgrade ⟨none, none, false⟩ ⟨WS.goStr ("GET"), WS.goStr ("example.org"), []⟩
      none ⟨true, false, 0, true⟩).netWritten = [] :=
  ⟨(WS.upgrade_validation ⟨none, none, false⟩ ⟨WS.goStr ("GET"), WS.goStr ("example.org"), []⟩
      none ⟨true, false, 0, true⟩).1 (by decide),
   (WS.upgrade_validation ⟨none, none, false⟩ ⟨WS.goStr ("GET"), WS.goStr ("example.org"), []⟩
      none ⟨true, false, 0, true⟩).2 WS.UpgErr.badConnectionHeader (by decide) (by decide)⟩

/-- C8 counterexample: a CONNECT response with the 2xx status 201 does not
yield a tunnel as the claim states; the dialer fails for every status
other than exactly 200. -/
theorem WS.httpProxyDial_2xx_cex :
    (200 : Nat) ≤ 201 ∧ (201 : Nat) < 300 ∧
    (WS.httpProxyDial ⟨none, WS.goStr ("proxy.example:80")⟩ (WS.goStr ("backend:443"))
      ⟨201, WS.goStr ("201 Created")⟩).2 ≠ WS.DialOutcome.tunnel := by
  refine ⟨by omega, by omega, by decide⟩

/-- C8 (amended): the proxy dialer dials the proxy address, sends a
CONNECT request whose Host is the target address with a Proxy-
Authorization Basic base64(user:password) header exactly when the proxy
URL has a user with a set password; it succeeds exactly when the response
status code is 200 — not for every 2xx — and otherwise fails with the
text after the first space of resp.Status. -/
theorem WS.httpProxyDial_spec :
    (∀ purl addr resp, (WS.httpProxyDial purl addr resp).1.dialAddr = purl.host ∧
      (WS.httpProxyDial purl addr resp).1.connectHost = addr) ∧
    (∀ purl addr resp, ((WS.httpProxyDial purl addr resp).1.authHeader).isSome = true ↔
      ∃ u pw, purl.user = some (u, some pw)) ∧
    (∀ u pw hostPort addr resp,
      (WS.httpProxyDial ⟨some (u, some pw), hostPort⟩ addr resp).1.authHeader =
        some (WS.goStr ("Basic ") ++ WS.base64Encode ((u ++ [':'] ++ pw).map Char.toNat))) ∧
    (∀ purl addr resp, resp.statusCode = 200 →
      (WS.httpProxyDial purl addr resp).2 = WS.DialOutcome.tunnel) ∧
    (∀ purl addr resp c t, resp.statusCode ≠ 200 → resp.status = c ++ ' ' :: t →
      (∀ ch ∈ c, ch ≠ ' ') → (WS.httpProxyDial purl addr resp).2 = WS.DialOutcome.failErr t) := by
  have htrace : ∀ purl addr resp, (WS.httpProxyDial purl addr resp).1 =
      ⟨purl.host, addr, WS.proxyAuthHeader purl.user⟩ := by
    intro purl addr resp
    unfold WS.httpProxyDial
    split
    · split <;> rfl
    · rfl
  refine ⟨fun purl addr resp => ⟨by rw [htrace], by rw [htrace]⟩, ?_, ?_, ?_, ?_⟩
  · intro purl addr resp
    rw [htrace]
    show (WS.proxyAuthHeader purl.user).isSome = true ↔ _
    unfold WS.proxyAuthHeader
    rcases purl.user with _ | ⟨u, _ | pw⟩ <;> simp
  · intro u pw hostPort addr resp
    rw [htrace]
    rfl
  · intro purl addr resp h
    unfold WS.httpProxyDial
    rw [if_neg (by omega)]
  · intro purl addr resp c t hcode hstat hnosp
    have hfind0 : ∀ (c : List Char) (i : Nat), (∀ ch ∈ c, ch ≠ ' ') →
        List.findIdx? (fun ch => ch = ' ') (c ++ ' ' :: t) i = some (i + c.length) := by
      intro c
      induction c with
      | nil => intro i _; simp [List.findIdx?]
      | cons a c ih =>
        intro i hns
        have ha : a ≠ ' ' := hns a (List.mem_cons_self a c)
        have ih2 := ih (i + 1) fun ch hch => hns ch (List.mem_cons_of_mem a hch)
        show List.findIdx? (fun ch => ch = ' ') (a :: (c ++ ' ' :: t)) i = _
        rw [List.findIdx?_cons, if_neg (by simpa using ha), ih2]
        simp only [List.length_cons]
        congr 1
        omega
    have hfind : List.findIdx? (fun ch => ch = ' ') (c ++ ' ' :: t) = some c.length := by
      have := hfind0 c 0 hnosp
      simpa using this
    have hsplit : WS.splitN2 resp.status = [c, t] := by
      simp only [WS.splitN2, hstat, hfind]
      rw [List.take_left' rfl,
        show (c ++ ' ' :: t).drop (c.length + 1) = t from by
          rw [List.drop_append 1]
          rfl]
    simp only [WS.httpProxyDial]
    rw [if_pos hcode, hsplit]
    rfl

/-- Witness for C8 at a 200 and a 404 response. -/
theorem WS.httpProxyDial_spec_witness :
    (WS.httpProxyDial ⟨none, WS.goStr ("proxy.example:80")⟩ (WS.goStr ("backend:443"))
      ⟨200, WS.goStr ("200 OK")⟩).2 = WS.DialOutcome.tunnel ∧
    (WS.httpProxyDial ⟨none, WS.goStr ("proxy.example:80")⟩ (WS.goStr ("backend:443"))
      ⟨404, WS.goStr ("404 Not Found")⟩).2 =
        WS.DialOutcome.failErr (WS.goStr ("Not Found")) :=
  ⟨WS.httpProxyDial_spec.2.2.2.1 ⟨none, WS.goStr ("proxy.example:80")⟩
      (WS.goStr ("backend:443")) ⟨200, WS.goStr ("200 OK")⟩ rfl,
   WS.httpProxyDial_spec.2.2.2.2 ⟨none, WS.goStr ("proxy.example:80")⟩
      (WS.goStr ("backend:443")) ⟨404, WS.goStr ("404 Not Found")⟩
      (WS.goStr ("404")) (WS.goStr ("Not Found")) (by decide) rfl (by decide)⟩

/-- C10: the claim that the failure branch never panics is wrong — Go's
ReadResponse accepts the status line "HTTP/1.1 403" (no reason phrase) and
produces resp.Status = "403" with no space, so SplitN(resp.Status," ",2)
has one element and indexing f[1] panics. -/
theorem WS.proxyStatus_panic :
    WS.readRespStatusLine (WS.goStr ("HTTP/1.1 403")) = some (WS.goStr ("403"), 403) ∧
    (403 : Nat) ≠ 200 ∧
    (WS.httpProxyDial ⟨none, WS.goStr ("proxy.example:80")⟩ (WS.goStr ("backend:443"))
      ⟨403, WS.goStr ("403")⟩).2 = WS.DialOutcome.panicked := by
  refine ⟨by decide, by omega, by decide⟩

/-- C7 counterexample: for the header entry "foo bar, websocket" the
spec's comma-split-and-trim predicate finds the token "websocket", but
tokenListContainsValue abandons the entry at the space inside "foo bar"
and returns false, so the claimed iff fails. -/
theorem WS.tokenListContainsValue_cex :
    WS.headerListContainsValueSpec
      [(WS.goStr ("Connection"), [WS.goStr ("foo bar, websocket")])]
      (WS.goStr ("Connection")) (WS.goStr ("websocket")) = true ∧
    WS.tokenListContainsValue
      [(WS.goStr ("Connection"), [WS.goStr ("foo bar, websocket")])]
      (WS.goStr ("Connection")) (WS.goStr ("websocket")) = false := by
  exact ⟨by decide, by decide⟩

/-- C7 (amended): when every entry of headers[name] is a well-formed
1#token list (the scanner's grammar: tokens separated by commas with
optional surrounding whitespace), tokenListContainsValue agrees exactly
with the spec's predicate: some comma-separated token of an entry, after
trimming ASCII whitespace, equals value under ASCII-only case folding. -/
theorem WS.tokenListContainsValue_spec (header : WS.Header) (name value : WS.GoStr)
    (hwf : ∀ entry ∈ WS.headerValues header name, (WS.tokensOf entry).isSome = true) :
    WS.tokenListContainsValue header name value =
      WS.headerListContainsValueSpec header name value := by
  unfold WS.tokenListContainsValue WS.headerListContainsValueSpec
  have hgen : ∀ l : List WS.GoStr, (∀ entry ∈ l, (WS.tokensOf entry).isSome = true) →
      l.any (fun s => WS.tokenScanF value (s.length + 1) s) =
      l.any (fun entry =>
        (WS.splitComma entry).any fun piece =>
          WS.equalASCIIFold (WS.trimWS piece) value) := by
    intro l
    induction l with
    | nil => intro _; rfl
    | cons e rest ihl =>
      intro hl
      simp only [List.any_cons]
      rw [WS.tokenScan_entry_spec value e (hl e (List.mem_cons_self e rest)),
        ihl (fun x hx => hl x (List.mem_cons_of_mem e hx))]
  exact hgen (WS.headerValues header name) hwf

/-- Witness for C7 on well-formed headers: the scanner agrees with the
comma-split predicate on "keep-alive, Upgrade", and "WEBSOCKET",
"websocket" and "WebSocket" all match the token "websocket", while the
non-ASCII pair "Ä"/"ä" does not fold. -/
theorem WS.tokenListContainsValue_spec_witness :
    (∀ entry ∈ WS.headerValues
        [(WS.goStr ("Connection"), [WS.goStr ("keep-alive, Upgrade")])]
        (WS.goStr ("Connection")), (WS.tokensOf entry).isSome = true) ∧
    WS.tokenListContainsValue
        [(WS.goStr ("Connection"), [WS.goStr ("keep-alive, Upgrade")])]
        (WS.goStr ("Connection")) (WS.goStr ("upgrade")) =
      WS.headerListContainsValueSpec
        [(WS.goStr ("Connection"), [WS.goStr ("keep-alive, Upgrade")])]
        (WS.goStr ("Connection")) (WS.goStr ("upgrade")) ∧
    WS.tokenListContainsValue
        [(WS.goStr ("Connection"), [WS.goStr ("keep-alive, Upgrade")])]
        (WS.goStr ("Connection")) (WS.goStr ("upgrade")) = true ∧
    WS.tokenListContainsValue [(WS.goStr ("Upgrade"), [WS.goStr ("websocket")])]
        (WS.goStr ("Upgrade")) (WS.goStr ("WEBSOCKET")) = true ∧
    WS.tokenListContainsValue [(WS.goStr ("Upgrade"), [WS.goStr ("websocket")])]
        (WS.goStr ("Upgrade")) (WS.goStr ("websocket")) = true ∧
    WS.tokenListContainsValue [(WS.goStr ("Upgrade"), [WS.goStr ("websocket")])]
        (WS.goStr ("Upgrade")) (WS.goStr ("WebSocket")) = true ∧
    WS.equalASCIIFold (WS.goStr ("Ä")) (WS.goStr ("ä")) = false :=
  ⟨by decide,
   WS.tokenListContainsValue_spec
     [(WS.goStr ("Connection"), [WS.goStr ("keep-alive, Upgrade")])]
     (WS.goStr ("Connection")) (WS.goStr ("upgrade")) (by decide),
   by decide, by decide, by decide, by decide, by decide⟩
